import Mathlib

/-!
Verification development for the mse-playout playout scheduling and ordered
queue engine.  The definitions below are a shallow embedding of the three
core components of the repository:

* `Playlist` (src/playlist.ts): the IndexedDB-backed ordered store.  The
  database is modelled as a list of records plus the auto-increment key
  counter; the cursor pass of `shiftQueueIndices` is modelled as a single
  update of every record whose `queueIndex` lies in the shifted range, and
  `getAll` sorts by `queueIndex` exactly as the source does.
* `Roll` (src/roll.ts): upsert resolution, ordering reconciliation and the
  buffering scheduler.  Scheduler state is passed explicitly; the video
  element feedback (current time, buffered end) enters as parameters of the
  tick function; times are rationals.
* `PlayoutBuffer` (src/playout-buffer.ts): the MediaSource sink adapter.
  JavaScript numbers appearing in `trim` are modelled by `JSNum` (NaN and
  the infinities are explicit constructors).  The external SourceBuffer is
  modelled by its busy flag: a successful `appendBuffer`/`remove` sets
  `updating` (as the MSE specification prescribes) and a rejected append
  throws, which the code turns into un-shifting the segment.  Whether an
  append attempt is accepted is supplied by an oracle.
-/

/-- Metadata values stored in the open key-value metadata map of a queue
item (strings, numbers and booleans cover everything the code inspects). -/
inductive MetaVal where
  | str (s : String)
  | num (n : Int)
  | boolV (b : Bool)
deriving DecidableEq, Repr

/-- Open metadata map of a queue item, as an association list; lookups take
the first binding, and merging puts the overriding map in front. -/
abbrev Metadata := List (String × MetaVal)

/-- Key lookup in a metadata map (JavaScript property access, `undefined`
becoming `none`). -/
def Metadata.lookup (m : Metadata) (k : String) : Option MetaVal :=
  (List.find? (fun p => p.1 = k) m).map (fun p => p.2)

/-- Shallow object spread: in the result of a merge the updating map wins on
shared keys and every other key keeps its old value. -/
def Metadata.mergeWith (old upd : Metadata) : Metadata :=
  (upd ++ old : List (String × MetaVal))

/-- One persisted record of the queue store (src/types/database.ts,
`QueueItem`): auto-assigned id, blob payload (a token, `none` when the
record has no blob data), position and metadata. -/
structure QueueItem where
  id : Nat
  blob : Option Nat
  queueIndex : Int
  metadata : Metadata
deriving DecidableEq, Repr

/-- The IndexedDB object store backing `Playlist`: its records and the
auto-increment key generator. -/
structure Store where
  items : List QueueItem
  nextId : Nat
deriving DecidableEq, Repr

/-- A freshly created database: no records, keys start at 1. -/
def Store.empty : Store := { items := [], nextId := 1 }

/-- Records sorted ascending by `queueIndex` (Playlist.getAll: the source
always sorts explicitly after reading the index). -/
def Playlist.getAll (s : Store) : List QueueItem :=
  s.items.mergeSort (fun a b => a.queueIndex ≤ b.queueIndex)

/-- Playlist.add: the new record gets `count` as its position when no
insert position is supplied, the clamped position otherwise, and when the
unclamped position lies strictly below `count` every record at or above it
is shifted up by one first (shiftQueueIndices with shift +1). Returns the
updated store and the id of the new record. -/
def Playlist.add (s : Store) (blob : Option Nat) (md : Metadata)
    (insertIndex : Option Int) : Store × Nat :=
  let n : Int := s.items.length
  let qi : Int :=
    match insertIndex with
    | some i => max 0 (min i n)
    | none => n
  let shifted : List QueueItem :=
    match insertIndex with
    | some i =>
        if i < n then
          s.items.map (fun e =>
            if i ≤ e.queueIndex then { e with queueIndex := e.queueIndex + 1 } else e)
        else s.items
    | none => s.items
  ({ items := shifted ++ [{ id := s.nextId, blob := blob, queueIndex := qi, metadata := md }],
     nextId := s.nextId + 1 }, s.nextId)

/-- Playlist.remove: fails (returns `none`) when the id is absent;
otherwise deletes the record and shifts every record with a strictly
greater position down by one (shiftQueueIndices from `queueIndex + 1`
with shift -1). -/
def Playlist.remove (s : Store) (rid : Nat) : Option Store :=
  match s.items.find? (fun e => e.id = rid) with
  | none => none
  | some e =>
      some { s with items :=
        (s.items.filter (fun x => x.id ≠ rid)).map (fun x =>
          if e.queueIndex + 1 ≤ x.queueIndex then { x with queueIndex := x.queueIndex - 1 }
          else x) }

/-- Fields of a partial record update handed to Playlist.updateItem
(`Partial QueueItem` in the source; a present field replaces the stored
one, except metadata which is shallow-merged). -/
structure ItemUpdate where
  blob : Option Nat := none
  queueIndex : Option Int := none
  metadata : Option Metadata := none

/-- Playlist.updateItem: fails when the id is absent; otherwise replaces
the supplied fields of that record, shallow-merging metadata when a
metadata map is supplied and keeping the stored metadata otherwise. -/
def Playlist.updateItem (s : Store) (uid : Nat) (u : ItemUpdate) : Option Store :=
  match s.items.find? (fun e => e.id = uid) with
  | none => none
  | some _ =>
      some { s with items := s.items.map (fun e =>
        if e.id = uid then
          { e with
            blob := match u.blob with | some b => some b | none => e.blob,
            queueIndex := match u.queueIndex with | some q => q | none => e.queueIndex,
            metadata := match u.metadata with
              | some m => Metadata.mergeWith e.metadata m
              | none => e.metadata }
        else e) }

/-- One step of Playlist.batchUpdateQueueIndices: set the position of the
record with the given id. -/
def Playlist.applyIndexUpdate (items : List QueueItem) (p : Nat × Int) : List QueueItem :=
  items.map (fun e => if e.id = p.1 then { e with queueIndex := p.2 } else e)

/-- Playlist.batchUpdateQueueIndices: fails when any id is absent,
otherwise applies every id-to-position assignment. -/
def Playlist.batchUpdateQueueIndices (s : Store) (updates : List (Nat × Int)) : Option Store :=
  if updates.all (fun p => s.items.any (fun e => e.id = p.1)) then
    some { s with items := updates.foldl Playlist.applyIndexUpdate s.items }
  else none

/-- Playlist.reorder: reads the records sorted by position, rejects
(returns `none`) when either position is outside the sorted list, and
otherwise swaps the `queueIndex` values of the records at the two
positions, writing both records back by id. -/
def Playlist.reorder (s : Store) (a b : Int) : Option Store :=
  let sorted := Playlist.getAll s
  if h : 0 ≤ a ∧ a < (sorted.length : Int) ∧ 0 ≤ b ∧ b < (sorted.length : Int) then
    let eA := sorted.get ⟨a.toNat, by omega⟩
    let eB := sorted.get ⟨b.toNat, by omega⟩
    some { s with items := s.items.map (fun e =>
      if e.id = eA.id then { e with queueIndex := eB.queueIndex }
      else if e.id = eB.id then { e with queueIndex := eA.queueIndex }
      else e) }
  else none

/-- Options accepted by Roll.upsertItem (src/roll.ts `UpsertOptions`): the
optional id to match, the metadata match predicate as parallel field and
value lists, the optional explicit position, and the two boolean flags with
their source defaults (`options.updateBlob !== false`). -/
structure UpsertOptions where
  id : Option Nat := none
  matchBy : Option (List String × List MetaVal) := none
  queueIndex : Option Int := none
  updateBlob : Bool := true
  mergeMetadata : Bool := true

/-- Outcome of Roll.upsertItem (src/roll.ts `UpsertResult`). -/
structure UpsertResult where
  id : Nat
  inserted : Bool
  matchedId : Option Nat := none
deriving DecidableEq, Repr

/-- Roll.findItemByMetadata: rejects mismatched field and value arities,
otherwise returns the first record, in ascending `queueIndex` order, whose
metadata agrees with every supplied field-value pair. -/
def Roll.findItemByMetadata (s : Store) (fields : List String) (values : List MetaVal) :
    Except String (Option QueueItem) :=
  if fields.length ≠ values.length then
    Except.error "Fields and values arrays must have the same length"
  else
    Except.ok ((Playlist.getAll s).find? (fun item =>
      (fields.zip values).all (fun p => Metadata.lookup item.metadata p.1 = some p.2)))

/-- Roll.upsertItem: resolves the target record first by exact id, then by
the metadata predicate, updates it through Playlist.updateItem when found
(replacing the blob unless disabled, moving it only when a position is
supplied, and building the stored metadata from the merge flag), and
inserts through Playlist.add otherwise. -/
def Roll.upsertItem (s : Store) (blob : Nat) (md : Metadata) (opts : UpsertOptions) :
    Except String (Store × UpsertResult) :=
  let byId : Option QueueItem :=
    match opts.id with
    | some i => s.items.find? (fun e => e.id = i)
    | none => none
  let found : Except String (Option (QueueItem × Nat)) :=
    match byId, opts.id with
    | some e, some i => Except.ok (some (e, i))
    | _, _ =>
        match opts.matchBy with
        | some mb =>
            (Roll.findItemByMetadata s mb.1 mb.2).map (fun r => r.map (fun e => (e, e.id)))
        | none => Except.ok none
  match found with
  | Except.error msg => Except.error msg
  | Except.ok (some (e, matchedId)) =>
      let upd : ItemUpdate :=
        { blob := if opts.updateBlob then some blob else none,
          queueIndex := opts.queueIndex,
          metadata := some (if opts.mergeMetadata then Metadata.mergeWith e.metadata md else md) }
      match Playlist.updateItem s matchedId upd with
      | some s' => Except.ok (s', { id := matchedId, inserted := false, matchedId := some matchedId })
      | none => Except.ok (s, { id := matchedId, inserted := false, matchedId := some matchedId })
  | Except.ok none =>
      let r := Playlist.add s (some blob) md opts.queueIndex
      Except.ok (r.1, { id := r.2, inserted := true, matchedId := none })

/-- One external ordering source entry (src/types/roll.ts `RollEntry`):
file key and desired order. -/
structure RollEntry where
  file : String
  order : Int
deriving DecidableEq, Repr

/-- Truthiness of a metadata value under JavaScript coercion: the empty
string, zero and `false` are falsy. -/
def MetaVal.truthy : MetaVal → Bool
  | MetaVal.str s => s ≠ ""
  | MetaVal.num n => n ≠ 0
  | MetaVal.boolV b => b

/-- Map from file key to ordering entry (`entryByFilename` in
Roll.buildOrderingFromEntries); `Map.set` lets a later entry with the same
file overwrite an earlier one, so lookup finds the last. -/
def Roll.entryByFilename (entries : List RollEntry) (f : String) : Option RollEntry :=
  entries.reverse.find? (fun e => e.file = f)

/-- Positional map of ordering entries (`entryByOriginalIndex`). -/
def Roll.entryByOriginalIndex (entries : List RollEntry) (v : MetaVal) : Option RollEntry :=
  match v with
  | MetaVal.num n => if h : 0 ≤ n ∧ n.toNat < entries.length then some (entries.get ⟨n.toNat, h.2⟩) else none
  | _ => none

/-- Resolution of one playlist item against the ordering source, mirroring
the expression `(filename && byFile.get(filename)) ?? (originalIndex !==
undefined && byIndex.get(originalIndex))`: a present but falsy filename
short-circuits the whole expression to a falsy non-nullish value (so no
entry resolves), a truthy filename that misses the file map falls through
to the positional map, and so does an absent filename. -/
def Roll.resolveEntry (entries : List RollEntry) (item : QueueItem) : Option RollEntry :=
  let fallback : Option RollEntry :=
    match Metadata.lookup item.metadata "originalIndex" with
    | some v => Roll.entryByOriginalIndex entries v
    | none => none
  match Metadata.lookup item.metadata "filename" with
  | some v =>
      if v.truthy then
        match v with
        | MetaVal.str f =>
            match Roll.entryByFilename entries f with
            | some e => some e
            | none => fallback
        | _ => fallback
      else none
  | none => fallback

/-- Roll.buildOrderingFromEntries: the id-to-desired-order pairs of every
playlist item that resolves to an ordering entry, in playlist order.  The
`Number.isFinite(entry.order)` guard of the source always holds in the
integer model. -/
def Roll.buildOrderingFromEntries (entries : List RollEntry) (playlistItems : List QueueItem) :
    List (Nat × Int) :=
  playlistItems.filterMap (fun item =>
    (Roll.resolveEntry entries item).map (fun e => (item.id, e.order)))

/-- Lookup in the `orderMap` built by Roll.reorderAllItems (`Map.set` makes
the last pair with a given id win). -/
def Roll.orderMapGet (orderingData : List (Nat × Int)) (oid : Nat) : Option Int :=
  (orderingData.reverse.find? (fun p => p.1 = oid)).map (fun p => p.2)

/-- The playlist items with a desired order, paired with it, in playlist
order. -/
def Roll.itemsWithOrder (orderingData : List (Nat × Int))
    (playlistItems : List QueueItem) : List (QueueItem × Int) :=
  playlistItems.filterMap (fun it => (Roll.orderMapGet orderingData it.id).map (fun o => (it, o)))

/-- The playlist items with no desired order, in playlist order. -/
def Roll.itemsWithoutOrder (orderingData : List (Nat × Int))
    (playlistItems : List QueueItem) : List QueueItem :=
  playlistItems.filter (fun it => (Roll.orderMapGet orderingData it.id).isNone)

/-- The items with a desired order sorted by that order (the stable
JavaScript array sort on the order values). -/
def Roll.sortedWithOrder (orderingData : List (Nat × Int))
    (playlistItems : List QueueItem) : List (QueueItem × Int) :=
  (Roll.itemsWithOrder orderingData playlistItems).mergeSort (fun x y => x.2 ≤ y.2)

/-- The id-to-position assignment of one reconciliation pass: positions
0..k-1 for the k sorted matched items, then continuing positions for the
unmatched items in their playlist order. -/
def Roll.finalOrdering (orderingData : List (Nat × Int))
    (playlistItems : List QueueItem) : List (Nat × Int) :=
  ((Roll.sortedWithOrder orderingData playlistItems).mapIdx (fun i p => (p.1.id, (i : Int)))) ++
  ((Roll.itemsWithoutOrder orderingData playlistItems).mapIdx (fun i it =>
    (it.id, ((Roll.sortedWithOrder orderingData playlistItems).length + i : Int))))

/-- Roll.reorderAllItems: splits the playlist items into those with a
desired order and those without, sorts the former by desired order,
assigns contiguous positions starting at 0 to them and continuing
positions to the latter, applies the assignment as one batch update and
returns how many items had a desired order.  `none` models a batch update
referencing an absent id. -/
def Roll.reorderAllItems (s : Store) (orderingData : List (Nat × Int))
    (playlistItems : List QueueItem) : Option (Store × Nat) :=
  if playlistItems.length = 0 then some (s, 0)
  else
    match Playlist.batchUpdateQueueIndices s (Roll.finalOrdering orderingData playlistItems) with
    | some s' => some (s', (Roll.itemsWithOrder orderingData playlistItems).length)
    | none => none

/-- Roll.updateOrdering: reads the playlist sorted by position, returns 0
without touching the store when it is empty or when no item resolves an
ordering entry, and otherwise reconciles through Roll.reorderAllItems. -/
def Roll.updateOrdering (entries : List RollEntry) (s : Store) : Option (Store × Nat) :=
  let playlistItems := Playlist.getAll s
  if playlistItems.length = 0 then some (s, 0)
  else
    let orderingData := Roll.buildOrderingFromEntries entries playlistItems
    if orderingData.length = 0 then some (s, 0)
    else Roll.reorderAllItems s orderingData playlistItems

/-- Scheduler state owned by one Roll attach session (the private fields of
src/roll.ts used by the buffering logic). -/
structure RollState where
  bufferedQueueIndex : Nat
  pendingTrimBoundary : Option ℚ
  nextSegmentScheduled : Bool
  totalItems : Nat
deriving DecidableEq, Repr

/-- Which end callbacks are registered on the Roll instance. -/
structure RollCallbacks where
  onRollEnd : Bool
  onStreamEnd : Bool
deriving DecidableEq, Repr

/-- Scheduler state right after Roll.attachBuffer resets it. -/
def RollState.attached (count : Nat) : RollState :=
  { bufferedQueueIndex := 0, pendingTrimBoundary := none,
    nextSegmentScheduled := false, totalItems := count }

/-- Observable effects of one scheduler step: the playlist position of a
segment pushed to the sink, whether the roll-end and stream-end callbacks
fired, and an issued trim boundary. -/
structure RollTickResult where
  state : RollState
  pushedPos : Option Nat
  rollEndFired : Bool
  streamEndFired : Bool
  trimIssued : Option ℚ
deriving DecidableEq, Repr

/-- Roll.shouldQueueNextVideo: false while nothing is buffered, otherwise
true exactly when the remaining buffered time has fallen to the
threshold. -/
def Roll.shouldQueueNextVideo (currentTime bufferedEnd threshold : ℚ) : Bool :=
  if bufferedEnd = 0 then false
  else decide (bufferedEnd - currentTime ≤ threshold)

/-- Roll.hasMoreSegments: false on an empty playlist; with a roll-end
callback registered, more segments remain only while the cursor has not
finished one full pass; without one, always true. -/
def Roll.hasMoreSegments (items : List QueueItem) (cbs : RollCallbacks) (st : RollState) : Bool :=
  if items.length = 0 then false
  else if cbs.onRollEnd then decide (st.bufferedQueueIndex < items.length)
  else true

/-- Roll.queueNextSegment: no-op when the in-flight gate is already set;
otherwise sets the gate, picks the item at the cursor modulo the playlist
length, abandons the delivery (releasing the gate) when the playlist is
empty or the item has no blob, and otherwise pushes the segment, advances
the cursor, fires the roll-end callback when the cursor reaches a positive
multiple of the length, and keeps the gate up exactly when a previous
buffered extent is recorded as the pending trim boundary. -/
def Roll.queueNextSegment (items : List QueueItem) (cbs : RollCallbacks)
    (st : RollState) (bufferedEnd : ℚ) : RollState × Option Nat × Bool :=
  if st.nextSegmentScheduled then (st, none, false)
  else
    let st1 := { st with nextSegmentScheduled := true, totalItems := items.length }
    if h : items.length = 0 then ({ st1 with nextSegmentScheduled := false }, none, false)
    else
      let idx := st1.bufferedQueueIndex % items.length
      let item := items.get ⟨idx, Nat.mod_lt _ (Nat.pos_of_ne_zero h)⟩
      match item.blob with
      | none => ({ st1 with nextSegmentScheduled := false }, none, false)
      | some _ =>
          let newIdx := st1.bufferedQueueIndex + 1
          let fired := cbs.onRollEnd && decide (0 < newIdx) && decide (newIdx % items.length = 0)
          let st2 := { st1 with bufferedQueueIndex := newIdx }
          if 0 < bufferedEnd ∧ st2.pendingTrimBoundary = none then
            ({ st2 with pendingTrimBoundary := some bufferedEnd }, some idx, fired)
          else
            ({ st2 with nextSegmentScheduled := false }, some idx, fired)

/-- Roll.onTimeUpdate, one feedback tick: first applies the pending trim
boundary once playback has reached it (issuing the trim and releasing the
gate), then re-evaluates `hasMoreSegments` (firing the stream-end callback
when nothing remains and playback has caught up with the buffered extent
within the 0.1 epsilon), and finally pushes the next segment when the gate
is clear and the threshold test passes. -/
def Roll.onTimeUpdate (items : List QueueItem) (cbs : RollCallbacks) (st : RollState)
    (currentTime bufferedEnd threshold : ℚ) : RollTickResult :=
  let trimStep : RollState × Option ℚ :=
    match st.pendingTrimBoundary with
    | some x =>
        if x ≤ currentTime then
          ({ st with pendingTrimBoundary := none, nextSegmentScheduled := false }, some x)
        else (st, none)
    | none => (st, none)
  let st1 := trimStep.1
  let hasMore := Roll.hasMoreSegments items cbs st1
  let st2 := { st1 with totalItems := items.length }
  let streamEnd :=
    cbs.onStreamEnd && !hasMore && decide (0 < bufferedEnd) &&
      decide (max 0 (bufferedEnd - 1/10) ≤ currentTime)
  if !hasMore then
    { state := st2, pushedPos := none, rollEndFired := false,
      streamEndFired := streamEnd, trimIssued := trimStep.2 }
  else if !st2.nextSegmentScheduled &&
      Roll.shouldQueueNextVideo currentTime bufferedEnd threshold then
    let q := Roll.queueNextSegment items cbs st2 bufferedEnd
    { state := q.1, pushedPos := q.2.1, rollEndFired := q.2.2,
      streamEndFired := streamEnd, trimIssued := trimStep.2 }
  else
    { state := st2, pushedPos := none, rollEndFired := false,
      streamEndFired := streamEnd, trimIssued := trimStep.2 }

/-- One simulated delivery attempt for the cycle analysis: deliver through
Roll.queueNextSegment whenever Roll.hasMoreSegments allows it, with an
empty buffered extent so the gate is released after every delivery. -/
def Roll.deliveryTick (items : List QueueItem) (cbs : RollCallbacks)
    (st : RollState) : RollState × Option Nat × Bool :=
  if Roll.hasMoreSegments items cbs st then Roll.queueNextSegment items cbs st 0
  else (st, none, false)

/-- State of the scheduler after a number of simulated delivery attempts
starting from a fresh attach. -/
def Roll.runTicks (items : List QueueItem) (cbs : RollCallbacks) : Nat → RollState
  | 0 => RollState.attached items.length
  | n + 1 => (Roll.deliveryTick items cbs (Roll.runTicks items cbs n)).1

/-- A JavaScript number as it flows through PlayoutBuffer.trim: NaN, the
two infinities, or a finite value (modelled by a rational). -/
inductive JSNum where
  | nan
  | posInf
  | negInf
  | fin (q : ℚ)
deriving DecidableEq, Repr

/-- Number.isNaN. -/
def JSNum.isNaN : JSNum → Bool
  | JSNum.nan => true
  | _ => false

/-- The JavaScript comparison `a <= b` (false whenever either side is
NaN). -/
def JSNum.le : JSNum → JSNum → Bool
  | JSNum.nan, _ => false
  | _, JSNum.nan => false
  | JSNum.negInf, _ => true
  | _, JSNum.posInf => true
  | JSNum.posInf, _ => false
  | _, JSNum.negInf => false
  | JSNum.fin a, JSNum.fin b => decide (a ≤ b)

/-- Math.max on two values: NaN absorbs, otherwise the larger one. -/
def JSNum.maxJS (a b : JSNum) : JSNum :=
  if a.isNaN || b.isNaN then JSNum.nan
  else if JSNum.le a b then b else a

/-- An entry of the PlayoutBuffer append queue (`QueuedSegment`): segment
id, payload token, optional stream tag, and whether it is an
initialization payload. -/
structure QSeg where
  id : Int
  data : Nat
  streamId : Option String
  isInit : Bool
deriving DecidableEq, Repr

/-- A segment handed to PlayoutBuffer.enqueue (src/types/segment.ts): id,
optional payload, and optional variant carrying the stream tag and an
optional initialization payload. -/
structure Segment where
  id : Int
  data : Option Nat
  variant : Option (String × Option Nat)
deriving DecidableEq, Repr

/-- Events a flush emits against the external SourceBuffer. -/
inductive PBEv where
  | removed (r : JSNum × JSNum)
  | appended (q : QSeg)
deriving DecidableEq, Repr

/-- The PlayoutBuffer state: whether the SourceBuffer exists, its busy
flag, the queued trim ranges, the append queue, and the last-delivered
watermark. -/
structure PBState where
  sourceOpen : Bool
  updating : Bool
  pendingTrimRanges : List (JSNum × JSNum)
  queue : List QSeg
  lastSegmentId : Option Int
deriving DecidableEq, Repr

/-- The append-draining loop of PlayoutBuffer.flush, recursing on the
snapshot taken of the queue.  Each iteration stops when the sink is gone
or busy, skips when the queue has emptied, and otherwise shifts the head
segment and attempts the append: acceptance (per the oracle) starts an
update on the SourceBuffer (its `updating` flag turns true, per the MSE
specification) and moves the watermark for a non-init segment; rejection
un-shifts the segment back to the front and stops the drain. -/
def PlayoutBuffer.drainLoop (oracle : Nat → Bool) :
    List Unit → PBState → Nat → List PBEv → PBState × List PBEv
  | [], st, _, acc => (st, acc)
  | _ :: snap, st, k, acc =>
      if !st.sourceOpen || st.updating then (st, acc)
      else
        match st.queue with
        | [] => PlayoutBuffer.drainLoop oracle snap st k acc
        | q :: qs =>
            if oracle k then
              let newLast := if q.isInit then st.lastSegmentId else some q.id
              PlayoutBuffer.drainLoop oracle snap
                { st with queue := qs, updating := true, lastSegmentId := newLast }
                (k + 1) (acc ++ [PBEv.appended q])
            else (st, acc)

/-- PlayoutBuffer.flush: nothing happens without a SourceBuffer or while
it is busy.  With a queued trim range the front range is shifted off and a
remove is attempted on the sink (oracle index 0): on success the
SourceBuffer starts updating and the flush returns after that one trim,
but a rejected remove is only logged — the shifted range stays dropped and
the very same flush falls through to draining the queued appends, whose
attempts then consult the oracle from index 1.  Without a queued trim the
appends are drained from oracle index 0. -/
def PlayoutBuffer.flush (st : PBState) (oracle : Nat → Bool) : PBState × List PBEv :=
  if !st.sourceOpen then (st, [])
  else if st.updating then (st, [])
  else
    match st.pendingTrimRanges with
    | r :: rest =>
        if oracle 0 then
          ({ st with pendingTrimRanges := rest, updating := true }, [PBEv.removed r])
        else
          if st.queue.isEmpty then ({ st with pendingTrimRanges := rest }, [])
          else PlayoutBuffer.drainLoop oracle (st.queue.map (fun _ => ()))
            { st with pendingTrimRanges := rest } 1 []
    | [] =>
        if st.queue.isEmpty then (st, [])
        else PlayoutBuffer.drainLoop oracle (st.queue.map (fun _ => ())) st 0 []

/-- The queue entries PlayoutBuffer.enqueue pushes for one segment: the
initialization payload first whenever the segment declares one, then the
data payload when present. -/
def PlayoutBuffer.enqueuePushes (seg : Segment) : List QSeg :=
  (match seg.variant with
   | some (sid, some ip) => [{ id := seg.id, data := ip, streamId := some sid, isInit := true }]
   | _ => []) ++
  (match seg.data with
   | some d => [{ id := seg.id, data := d, streamId := seg.variant.map (fun v => v.1), isInit := false }]
   | none => [])

/-- PlayoutBuffer.enqueue: pushes the init payload (when declared) and the
data payload onto the queue in that order, returning before the flush when
the segment has no data. -/
def PlayoutBuffer.enqueue (st : PBState) (oracle : Nat → Bool) (seg : Segment) :
    PBState × List PBEv :=
  let st1 := { st with queue := st.queue ++ PlayoutBuffer.enqueuePushes seg }
  match seg.data with
  | none => (st1, [])
  | some _ => PlayoutBuffer.flush st1 oracle

/-- PlayoutBuffer.trim: returns untouched on a NaN bound, clamps the start
up to 0, clamps the end up to the clamped start, drops the request when
the clamped range is empty, and otherwise queues the range and flushes. -/
def PlayoutBuffer.trim (st : PBState) (oracle : Nat → Bool) (start stop : JSNum) :
    PBState × List PBEv :=
  if start.isNaN || stop.isNaN then (st, [])
  else
    let safeStart := JSNum.maxJS (JSNum.fin 0) start
    let safeEnd := JSNum.maxJS safeStart stop
    if JSNum.le safeEnd safeStart then (st, [])
    else PlayoutBuffer.flush
      { st with pendingTrimRanges := st.pendingTrimRanges ++ [(safeStart, safeEnd)] } oracle

/-- The drain loop stops immediately while the SourceBuffer is busy. -/
theorem drainLoop_busy (oracle : Nat → Bool) (snap : List Unit) (st : PBState)
    (k : Nat) (acc : List PBEv) (h : st.updating = true) :
    PlayoutBuffer.drainLoop oracle snap st k acc = (st, acc) := by
  cases snap with
  | nil => rfl
  | cons a tl => simp [PlayoutBuffer.drainLoop, h]

/-- A busy sink leaves a flush without effect. -/
theorem flush_busy (st : PBState) (oracle : Nat → Bool) (h : st.updating = true) :
    PlayoutBuffer.flush st oracle = (st, []) := by
  cases hs : st.sourceOpen
  · simp [PlayoutBuffer.flush, hs]
  · simp [PlayoutBuffer.flush, hs, h]

/-- A detached sink leaves a flush without effect. -/
theorem flush_closed (st : PBState) (oracle : Nat → Bool) (h : st.sourceOpen = false) :
    PlayoutBuffer.flush st oracle = (st, []) := by
  simp [PlayoutBuffer.flush, h]

/-- A ready flush with a queued trim range whose remove the sink accepts
executes exactly that trim. -/
theorem flush_trim_step (st : PBState) (oracle : Nat → Bool) (r : JSNum × JSNum)
    (rest : List (JSNum × JSNum)) (hS : st.sourceOpen = true) (hU : st.updating = false)
    (hT : st.pendingTrimRanges = r :: rest) (hO : oracle 0 = true) :
    PlayoutBuffer.flush st oracle =
      ({ st with pendingTrimRanges := rest, updating := true }, [PBEv.removed r]) := by
  simp [PlayoutBuffer.flush, hS, hU, hT, hO]

/-- A rejected remove on an empty append queue drops the shifted range and
ends the flush with no sink operation. -/
theorem flush_trim_fail_empty (st : PBState) (oracle : Nat → Bool) (r : JSNum × JSNum)
    (rest : List (JSNum × JSNum)) (hS : st.sourceOpen = true) (hU : st.updating = false)
    (hT : st.pendingTrimRanges = r :: rest) (hO : oracle 0 = false) (hQ : st.queue = []) :
    PlayoutBuffer.flush st oracle = ({ st with pendingTrimRanges := rest }, []) := by
  simp [PlayoutBuffer.flush, hS, hU, hT, hO, hQ]

/-- A rejected remove followed by a rejected first append drops the
shifted range, keeps the head segment at the front of the queue, and emits
nothing. -/
theorem flush_trim_fail_reject (st : PBState) (oracle : Nat → Bool) (r : JSNum × JSNum)
    (rest : List (JSNum × JSNum)) (q : QSeg) (qs : List QSeg)
    (hS : st.sourceOpen = true) (hU : st.updating = false)
    (hT : st.pendingTrimRanges = r :: rest) (hO : oracle 0 = false) (hQ : st.queue = q :: qs)
    (hO1 : oracle 1 = false) :
    PlayoutBuffer.flush st oracle = ({ st with pendingTrimRanges := rest }, []) := by
  simp only [PlayoutBuffer.flush, hS, hU, hT, hO, hQ]
  simp only [Bool.not_true, Bool.false_eq_true, if_false, List.isEmpty_cons, List.map_cons]
  rw [PlayoutBuffer.drainLoop]
  simp [hS, hU, hQ, hO1]

/-- A rejected remove followed by an accepted first append drops the
shifted range and appends the head segment in the same flush, moving the
watermark for a non-init payload. -/
theorem flush_trim_fail_accept (st : PBState) (oracle : Nat → Bool) (r : JSNum × JSNum)
    (rest : List (JSNum × JSNum)) (q : QSeg) (qs : List QSeg)
    (hS : st.sourceOpen = true) (hU : st.updating = false)
    (hT : st.pendingTrimRanges = r :: rest) (hO : oracle 0 = false) (hQ : st.queue = q :: qs)
    (hO1 : oracle 1 = true) :
    PlayoutBuffer.flush st oracle =
      ({ st with pendingTrimRanges := rest, queue := qs, updating := true, lastSegmentId := if q.isInit then st.lastSegmentId else some q.id },
       [PBEv.appended q]) := by
  simp only [PlayoutBuffer.flush, hS, hU, hT, hO, hQ]
  simp only [Bool.not_true, Bool.false_eq_true, if_false, List.isEmpty_cons, List.map_cons]
  rw [PlayoutBuffer.drainLoop]
  simp only [hS, hU, hQ, Bool.not_true, Bool.false_or, Bool.or_false, if_false, hO1, if_true]
  rw [drainLoop_busy]
  · simp
  · rfl

/-- A ready flush whose first append attempt is rejected leaves the state
untouched: the segment stays at the front of the queue. -/
theorem flush_reject_step (st : PBState) (oracle : Nat → Bool) (q : QSeg) (qs : List QSeg)
    (hS : st.sourceOpen = true) (hU : st.updating = false) (hT : st.pendingTrimRanges = [])
    (hQ : st.queue = q :: qs) (hO : oracle 0 = false) :
    PlayoutBuffer.flush st oracle = (st, []) := by
  simp [PlayoutBuffer.flush, hS, hU, hT, hQ, PlayoutBuffer.drainLoop, hO]

/-- A ready flush whose first append attempt is accepted appends exactly
the head segment, leaves the rest queued, and moves the watermark for a
non-init payload. -/
theorem flush_accept_step (st : PBState) (oracle : Nat → Bool) (q : QSeg) (qs : List QSeg)
    (hS : st.sourceOpen = true) (hU : st.updating = false) (hT : st.pendingTrimRanges = [])
    (hQ : st.queue = q :: qs) (hO : oracle 0 = true) :
    PlayoutBuffer.flush st oracle =
      ({ st with queue := qs, updating := true, lastSegmentId := if q.isInit then st.lastSegmentId else some q.id },
       [PBEv.appended q]) := by
  simp only [PlayoutBuffer.flush, hS, hU, hT, hQ]
  simp only [List.isEmpty_cons, Bool.false_eq_true, if_false, List.map_cons]
  rw [PlayoutBuffer.drainLoop]
  simp only [hS, hU, hQ, hT, Bool.not_true, Bool.false_or, Bool.or_false, if_false, hO, if_true]
  rw [drainLoop_busy]
  · simp [hT]
  · rfl

/-- C6 amended: a flush on a busy or detached sink does nothing.  With a
queued trim request the front range is shifted off and its remove is
attempted: when the sink accepts the remove, exactly that one trim is
executed and the flush returns without touching the append queue; when the
sink rejects the remove, the range is dropped (not re-queued, the error
only logged) and the same flush falls through to draining the appends.
While draining, a rejected append leaves the segment at the front of the
queue and stops with no error surfaced, and an accepted append of the
head segment removes it from the queue and, when it is not an init
payload, moves the last-delivered watermark to its id. -/
theorem flush_policy (st : PBState) (oracle : Nat → Bool) :
    ((st.sourceOpen = false ∨ st.updating = true) → PlayoutBuffer.flush st oracle = (st, [])) ∧
    (∀ r rest, st.sourceOpen = true → st.updating = false →
      st.pendingTrimRanges = r :: rest → oracle 0 = true →
      PlayoutBuffer.flush st oracle =
        ({ st with pendingTrimRanges := rest, updating := true }, [PBEv.removed r])) ∧
    (∀ r rest, st.sourceOpen = true → st.updating = false →
      st.pendingTrimRanges = r :: rest → oracle 0 = false → st.queue = [] →
      PlayoutBuffer.flush st oracle = ({ st with pendingTrimRanges := rest }, [])) ∧
    (∀ r rest q qs, st.sourceOpen = true → st.updating = false →
      st.pendingTrimRanges = r :: rest → oracle 0 = false → st.queue = q :: qs →
      oracle 1 = false →
      PlayoutBuffer.flush st oracle = ({ st with pendingTrimRanges := rest }, [])) ∧
    (∀ r rest q qs, st.sourceOpen = true → st.updating = false →
      st.pendingTrimRanges = r :: rest → oracle 0 = false → st.queue = q :: qs →
      oracle 1 = true →
      PlayoutBuffer.flush st oracle =
        ({ st with pendingTrimRanges := rest, queue := qs, updating := true, lastSegmentId := if q.isInit then st.lastSegmentId else some q.id },
         [PBEv.appended q])) ∧
    (∀ q qs, st.sourceOpen = true → st.updating = false → st.pendingTrimRanges = [] →
      st.queue = q :: qs → oracle 0 = false →
      PlayoutBuffer.flush st oracle = (st, [])) ∧
    (∀ q qs, st.sourceOpen = true → st.updating = false → st.pendingTrimRanges = [] →
      st.queue = q :: qs → oracle 0 = true →
      PlayoutBuffer.flush st oracle =
        ({ st with queue := qs, updating := true, lastSegmentId := if q.isInit then st.lastSegmentId else some q.id },
         [PBEv.appended q])) := by
  refine ⟨?_, ?_, ?_, ?_, ?_, ?_, ?_⟩
  · intro h
    rcases h with h | h
    · exact flush_closed st oracle h
    · exact flush_busy st oracle h
  · intro r rest hS hU hT hO
    exact flush_trim_step st oracle r rest hS hU hT hO
  · intro r rest hS hU hT hO hQ
    exact flush_trim_fail_empty st oracle r rest hS hU hT hO hQ
  · intro r rest q qs hS hU hT hO hQ hO1
    exact flush_trim_fail_reject st oracle r rest q qs hS hU hT hO hQ hO1
  · intro r rest q qs hS hU hT hO hQ hO1
    exact flush_trim_fail_accept st oracle r rest q qs hS hU hT hO hQ hO1
  · intro q qs hS hU hT hQ hO
    exact flush_reject_step st oracle q qs hS hU hT hQ hO
  · intro q qs hS hU hT hQ hO
    exact flush_accept_step st oracle q qs hS hU hT hQ hO

/-- Witness for flush_policy: on a ready sink holding one trim range and
one queued segment, a rejected remove followed by an accepted append drops
the range and appends the segment in the same flush; the same state with
an accepted remove executes exactly the one trim. -/
theorem flush_policy_witness :
    PlayoutBuffer.flush
      { sourceOpen := true, updating := false,
        pendingTrimRanges := [(JSNum.fin 0, JSNum.fin 1)],
        queue := [{ id := 5, data := 42, streamId := none, isInit := false }],
        lastSegmentId := none }
      (fun k => decide (0 < k)) =
    ({ sourceOpen := true, updating := true, pendingTrimRanges := [],
       queue := [], lastSegmentId := some 5 },
     [PBEv.appended { id := 5, data := 42, streamId := none, isInit := false }]) ∧
    PlayoutBuffer.flush
      { sourceOpen := true, updating := false,
        pendingTrimRanges := [(JSNum.fin 0, JSNum.fin 1)],
        queue := [{ id := 5, data := 42, streamId := none, isInit := false }],
        lastSegmentId := none }
      (fun _ => true) =
    ({ sourceOpen := true, updating := true, pendingTrimRanges := [],
       queue := [{ id := 5, data := 42, streamId := none, isInit := false }],
       lastSegmentId := none },
     [PBEv.removed (JSNum.fin 0, JSNum.fin 1)]) :=
  ⟨(flush_policy _ _).2.2.2.2.1 (JSNum.fin 0, JSNum.fin 1) []
      { id := 5, data := 42, streamId := none, isInit := false } [] rfl rfl rfl rfl rfl rfl,
    (flush_policy _ _).2.1 (JSNum.fin 0, JSNum.fin 1) [] rfl rfl rfl rfl⟩

/-- C6 counterexample: the claim says a flush with a queued trim request
executes exactly one trim and returns without appending, but the source
only tries the remove — when the sink throws, the shifted range is dropped
and the same flush drains the append queue: here no trim is executed and a
segment is appended in the very flush that held a queued trim request. -/
theorem flush_trim_catch_counterexample :
    PlayoutBuffer.flush
      { sourceOpen := true, updating := false,
        pendingTrimRanges := [(JSNum.fin 0, JSNum.fin 1)],
        queue := [{ id := 9, data := 7, streamId := none, isInit := false }],
        lastSegmentId := none }
      (fun k => decide (0 < k)) =
    ({ sourceOpen := true, updating := true, pendingTrimRanges := [],
       queue := [], lastSegmentId := some 9 },
     [PBEv.appended { id := 9, data := 7, streamId := none, isInit := false }]) := by
  decide

/-- C7 counterexample: the claim demands a silent no-op whenever a bound is
not a finite non-negative number, but `trim(-1, 2)` on a busy sink queues
the clamped range [0, 2) — the state changes and the queued start is not
the given start. -/
theorem trim_validation_counterexample :
    (PlayoutBuffer.trim
      { sourceOpen := true, updating := true, pendingTrimRanges := [], queue := [],
        lastSegmentId := none }
      (fun _ => true) (JSNum.fin (-1)) (JSNum.fin 2)).1.pendingTrimRanges =
      [(JSNum.fin 0, JSNum.fin 2)] := by
  decide


/-- C7 amended: `trim(start, stop)` is a silent no-op exactly when a bound
is NaN or `stop` is at most the start clamped up to zero; otherwise it
queues the half-open range from the clamped start to the given `stop` (so
a negative start is clamped rather than rejected, and an infinite `stop`
is accepted).  The busy-sink hypothesis keeps the queued range observable
(the immediate flush inside trim is then without effect). -/
theorem trim_validation_amended (st : PBState) (oracle : Nat → Bool) (start stop : JSNum)
    (hbusy : st.updating = true) :
    ((start.isNaN = true ∨ stop.isNaN = true ∨
        JSNum.le stop (JSNum.maxJS (JSNum.fin 0) start) = true) →
      PlayoutBuffer.trim st oracle start stop = (st, [])) ∧
    (start.isNaN = false → stop.isNaN = false →
      JSNum.le stop (JSNum.maxJS (JSNum.fin 0) start) = false →
      PlayoutBuffer.trim st oracle start stop =
        ({ st with pendingTrimRanges := st.pendingTrimRanges ++ [(JSNum.maxJS (JSNum.fin 0) start, stop)] },
         [])) := by
  unfold PlayoutBuffer.trim
  cases start with
  | nan => simp [JSNum.isNaN]
  | posInf =>
      cases stop <;> simp [JSNum.isNaN, JSNum.maxJS, JSNum.le]
  | negInf =>
      cases stop with
      | nan => simp [JSNum.isNaN]
      | posInf => simp [JSNum.isNaN, JSNum.maxJS, JSNum.le, flush_busy, hbusy]
      | negInf => simp [JSNum.isNaN, JSNum.maxJS, JSNum.le]
      | fin b =>
          by_cases h0b : (0 : ℚ) ≤ b
          · by_cases hb0 : b ≤ 0
            · simp [JSNum.isNaN, JSNum.maxJS, JSNum.le, h0b, hb0]
            · simp [JSNum.isNaN, JSNum.maxJS, JSNum.le, h0b, hb0, flush_busy, hbusy]
          · have hb0 : b ≤ 0 := le_of_lt (lt_of_not_le h0b)
            simp [JSNum.isNaN, JSNum.maxJS, JSNum.le, h0b, hb0]
  | fin a =>
      cases stop with
      | nan => simp [JSNum.isNaN]
      | posInf =>
          by_cases ha : (0 : ℚ) ≤ a <;>
            simp [JSNum.isNaN, JSNum.maxJS, JSNum.le, ha, flush_busy, hbusy]
      | negInf =>
          by_cases ha : (0 : ℚ) ≤ a <;>
            simp [JSNum.isNaN, JSNum.maxJS, JSNum.le, ha]
      | fin b =>
          by_cases ha : (0 : ℚ) ≤ a
          · by_cases hab : a ≤ b
            · by_cases hba : b ≤ a
              · simp [JSNum.isNaN, JSNum.maxJS, JSNum.le, ha, hab, hba]
              · simp [JSNum.isNaN, JSNum.maxJS, JSNum.le, ha, hab, hba, flush_busy, hbusy]
            · have hba : b ≤ a := le_of_lt (lt_of_not_le hab)
              simp [JSNum.isNaN, JSNum.maxJS, JSNum.le, ha, hab, hba]
          · by_cases h0b : (0 : ℚ) ≤ b
            · by_cases hb0 : b ≤ 0
              · simp [JSNum.isNaN, JSNum.maxJS, JSNum.le, ha, h0b, hb0]
              · simp [JSNum.isNaN, JSNum.maxJS, JSNum.le, ha, h0b, hb0, flush_busy, hbusy]
            · have hb0 : b ≤ 0 := le_of_lt (lt_of_not_le h0b)
              simp [JSNum.isNaN, JSNum.maxJS, JSNum.le, ha, h0b, hb0]

/-- Witness for trim_validation_amended: a well-formed trim on a busy sink
queues exactly the given range, and a reversed range is dropped. -/
theorem trim_validation_amended_witness :
    PlayoutBuffer.trim
      { sourceOpen := true, updating := true, pendingTrimRanges := [], queue := [],
        lastSegmentId := none }
      (fun _ => false) (JSNum.fin 1) (JSNum.fin 3) =
    ({ sourceOpen := true, updating := true, pendingTrimRanges := [(JSNum.fin 1, JSNum.fin 3)],
       queue := [], lastSegmentId := none }, []) :=
  (trim_validation_amended _ _ _ _ rfl).2 rfl rfl (by decide)

/-- Scenario for the init-payload claim: a fresh open sink, then segment 1
with an init payload for tag "main" is enqueued and fully delivered (its
init payload and data payload are both appended, so tag "main" is
initialized on the sink), then segment 2 declaring an init payload for the
same tag is enqueued. -/
def pbInitScenarioStart : PBState :=
  { sourceOpen := true, updating := false, pendingTrimRanges := [], queue := [],
    lastSegmentId := none }

/-- First segment of the init-payload scenario. -/
def pbInitSeg1 : Segment := { id := 1, data := some 10, variant := some ("main", some 100) }

/-- Second segment of the init-payload scenario, same stream tag. -/
def pbInitSeg2 : Segment := { id := 2, data := some 20, variant := some ("main", some 200) }

/-- The event trace of the scenario: enqueue segment 1, two ready signals
that drain its init and data payloads, then enqueue segment 2. -/
def pbInitScenarioTrace : List PBEv :=
  let s1 := PlayoutBuffer.enqueue pbInitScenarioStart (fun _ => true) pbInitSeg1
  let s2 := PlayoutBuffer.flush { s1.1 with updating := false } (fun _ => true)
  let s3 := PlayoutBuffer.flush { s2.1 with updating := false } (fun _ => true)
  let s4 := PlayoutBuffer.enqueue { s3.1 with updating := false } (fun _ => true) pbInitSeg2
  s1.2 ++ s2.2 ++ s3.2 ++ s4.2

/-- C8 counterexample: the claim says a stream tag already initialized on
the sink gets no second init entry, but the sink keeps no record of
initialized tags: after segment 1's init payload for tag "main" has been
appended, enqueuing segment 2 with an init payload for "main" queues and
appends a second init entry — the trace holds two appended init payloads
for the same tag. -/
theorem enqueue_init_dedup_counterexample :
    (pbInitScenarioTrace.filter (fun ev =>
      match ev with
      | PBEv.appended q => q.isInit && (q.streamId = some "main")
      | PBEv.removed _ => false)).length = 2 := by
  decide

/-- C8 amended: whenever a segment declares an init payload and has data,
the init entry is queued immediately ahead of that same segment's data
entry at the tail of the queue, regardless of whether the tag was already
initialized on the sink; and appends are flushed in FIFO order: any flush
with no queued trim appends a prefix of the queue, in order, leaving the
rest queued. -/
theorem enqueue_init_order (st : PBState) (oracle : Nat → Bool) (seg : Segment)
    (sid : String) (ip d : Nat)
    (hv : seg.variant = some (sid, some ip)) (hd : seg.data = some d) :
    (PlayoutBuffer.enqueuePushes seg =
      [{ id := seg.id, data := ip, streamId := some sid, isInit := true },
       { id := seg.id, data := d, streamId := some sid, isInit := false }]) ∧
    (PlayoutBuffer.enqueue st oracle seg =
      PlayoutBuffer.flush { st with queue := st.queue ++ PlayoutBuffer.enqueuePushes seg } oracle) ∧
    (∀ st2 : PBState, st2.pendingTrimRanges = [] →
      ∃ m, (PlayoutBuffer.flush st2 oracle).2 = (st2.queue.take m).map PBEv.appended ∧
        (PlayoutBuffer.flush st2 oracle).1.queue = st2.queue.drop m) := by
  refine ⟨?_, ?_, ?_⟩
  · simp [PlayoutBuffer.enqueuePushes, hv, hd]
  · simp only [PlayoutBuffer.enqueue, hd]
  · intro st2 hT
    by_cases hs : st2.sourceOpen = true
    · by_cases hu : st2.updating = true
      · exact ⟨0, by simp [flush_busy _ _ hu]⟩
      · have hu' : st2.updating = false := by
          cases h : st2.updating
          · rfl
          · exact absurd h hu
        cases hq : st2.queue with
        | nil =>
            refine ⟨0, ?_, ?_⟩ <;> simp [PlayoutBuffer.flush, hs, hu', hT, hq]
        | cons q qs =>
            cases ho : oracle 0 with
            | false =>
                have := flush_reject_step st2 oracle q qs hs hu' hT hq ho
                exact ⟨0, by simp [this], by simp [this, hq]⟩
            | true =>
                have := flush_accept_step st2 oracle q qs hs hu' hT hq ho
                exact ⟨1, by simp [this, hq], by simp [this, hq]⟩
    · have hs' : st2.sourceOpen = false := by
        cases h : st2.sourceOpen
        · rfl
        · exact absurd h hs
      exact ⟨0, by simp [PlayoutBuffer.flush, hs']⟩

/-- Witness for enqueue_init_order: enqueuing a concrete segment with an
init payload onto a busy sink queues the init entry directly ahead of the
data entry. -/
theorem enqueue_init_order_witness :
    PlayoutBuffer.enqueuePushes { id := 7, data := some 3, variant := some ("s", some 4) } =
      [{ id := 7, data := 4, streamId := some "s", isInit := true },
       { id := 7, data := 3, streamId := some "s", isInit := false }] :=
  (enqueue_init_order pbInitScenarioStart (fun _ => true)
    { id := 7, data := some 3, variant := some ("s", some 4) } "s" 4 3 rfl rfl).1

/-- Searching by id through a map that preserves ids finds the image of
the original find. -/
theorem find_id_map (l : List QueueItem) (f : QueueItem → QueueItem)
    (hf : ∀ x, (f x).id = x.id) (i : Nat) :
    (l.map f).find? (fun e => e.id = i) = (l.find? (fun e => e.id = i)).map f := by
  induction l with
  | nil => rfl
  | cons x tl ih =>
      by_cases hx : x.id = i
      · simp [List.find?_cons, hf, hx]
      · simp [List.find?_cons, hf, hx, ih]

/-- Lookup through a shallow merge prefers the updating map and falls back
to the old one. -/
theorem lookup_mergeWith (old upd : Metadata) (k : String) :
    Metadata.lookup (Metadata.mergeWith old upd) k =
      ((Metadata.lookup upd k).or (Metadata.lookup old k)) := by
  unfold Metadata.lookup Metadata.mergeWith
  rw [List.find?_append]
  cases List.find? (fun p => p.1 = k) upd <;> simp

/-- Playlist.updateItem with a supplied metadata map stores the shallow
merge: lookups prefer the supplied map and keep the old value on keys it
does not mention. -/
theorem updateItem_lookup (s : Store) (uid : Nat) (u : ItemUpdate) (m : Metadata)
    (e : QueueItem) (hm : u.metadata = some m)
    (he : s.items.find? (fun x => x.id = uid) = some e) :
    ∃ s', Playlist.updateItem s uid u = some s' ∧
      ∃ e', s'.items.find? (fun x => x.id = uid) = some e' ∧
        ∀ k, Metadata.lookup e'.metadata k =
          ((Metadata.lookup m k).or (Metadata.lookup e.metadata k)) := by
  have hid : e.id = uid := by simpa using List.find?_some he
  unfold Playlist.updateItem
  rw [he]
  refine ⟨_, rfl, ?_⟩
  rw [find_id_map _ _ (fun x => by by_cases hx : x.id = uid <;> simp [hx]) uid, he]
  refine ⟨_, rfl, ?_⟩
  intro k
  simp only [Option.map_some, hid, if_pos rfl, hm]
  exact lookup_mergeWith e.metadata m k

/-- C10: Playlist.updateItem with a metadata map in its updates always
shallow-merges it over the stored metadata — keys absent from the supplied
map keep their old values, so metadata is never replaced wholesale — and
consequently Roll.upsertItem updating an id-matched entry with
mergeMetadata disabled still leaves previously stored keys in place when
the supplied metadata does not mention them. -/
theorem updateItem_metadata_merge (s : Store) (uid : Nat) :
    (∀ (u : ItemUpdate) (m : Metadata) (e : QueueItem),
      u.metadata = some m →
      s.items.find? (fun x => x.id = uid) = some e →
      ∃ s', Playlist.updateItem s uid u = some s' ∧
        ∃ e', s'.items.find? (fun x => x.id = uid) = some e' ∧
          ∀ k, Metadata.lookup e'.metadata k =
            ((Metadata.lookup m k).or (Metadata.lookup e.metadata k))) ∧
    (∀ (blob : Nat) (md : Metadata) (opts : UpsertOptions) (e : QueueItem),
      opts.id = some uid → opts.mergeMetadata = false →
      s.items.find? (fun x => x.id = uid) = some e →
      ∃ s',
        Roll.upsertItem s blob md opts =
          Except.ok (s', { id := uid, inserted := false, matchedId := some uid }) ∧
        ∃ e', s'.items.find? (fun x => x.id = uid) = some e' ∧
          ∀ k, Metadata.lookup e'.metadata k =
            ((Metadata.lookup md k).or (Metadata.lookup e.metadata k))) := by
  constructor
  · intro u m e hm he
    exact updateItem_lookup s uid u m e hm he
  · intro blob md opts e hoid hmerge he
    have h := updateItem_lookup s uid
      { blob := if opts.updateBlob then some blob else none,
        queueIndex := opts.queueIndex,
        metadata := some (if opts.mergeMetadata then Metadata.mergeWith e.metadata md else md) }
      md e (by simp [hmerge]) he
    rcases h with ⟨s', hupd, e', hfind, hlook⟩
    refine ⟨s', ?_, e', hfind, hlook⟩
    simp only [Roll.upsertItem, hoid, he, hupd]

/-- Witness for updateItem_metadata_merge: on a one-record store, updating
with a metadata map carrying only key "b" keeps the stored value of key
"a" and overrides "b". -/
theorem updateItem_metadata_merge_witness :
    ∃ s', Playlist.updateItem
        { items := [{ id := 1, blob := some 5, queueIndex := 0,
                      metadata := [("a", MetaVal.num 1), ("b", MetaVal.num 2)] }], nextId := 2 }
        1 { metadata := some [("b", MetaVal.num 9)] } = some s' ∧
      ∃ e', s'.items.find? (fun x => x.id = 1) = some e' ∧
        ∀ k, Metadata.lookup e'.metadata k =
          ((Metadata.lookup [("b", MetaVal.num 9)] k).or
            (Metadata.lookup [("a", MetaVal.num 1), ("b", MetaVal.num 2)] k)) :=
  (updateItem_metadata_merge
    { items := [{ id := 1, blob := some 5, queueIndex := 0,
                  metadata := [("a", MetaVal.num 1), ("b", MetaVal.num 2)] }], nextId := 2 } 1).1
    { metadata := some [("b", MetaVal.num 9)] } [("b", MetaVal.num 9)]
    { id := 1, blob := some 5, queueIndex := 0,
      metadata := [("a", MetaVal.num 1), ("b", MetaVal.num 2)] } rfl (by decide)

/-- C9: an upsert whose supplied id matches an existing record updates that
record — the outcome reports an update of exactly that id, the set of
stored ids is unchanged and every other record is untouched — regardless
of what the matchBy predicate would have matched; the metadata predicate
is consulted only when no id match exists, in which case the first record
in queue order whose metadata agrees with every supplied field-value pair
is updated; and when neither resolution finds a record, a new record is
inserted through Playlist.add. -/
theorem upsert_match_priority (s : Store) (blob : Nat) (md : Metadata) (opts : UpsertOptions) :
    (∀ i e, opts.id = some i →
      s.items.find? (fun x => x.id = i) = some e →
      ∃ s', Roll.upsertItem s blob md opts =
          Except.ok (s', { id := i, inserted := false, matchedId := some i }) ∧
        s'.items.map (fun x => x.id) = s.items.map (fun x => x.id) ∧
        (∀ e', e' ∈ s.items → e'.id ≠ i → e' ∈ s'.items)) ∧
    (∀ i fs vs e,
      opts.id = some i →
      s.items.find? (fun x => x.id = i) = none →
      opts.matchBy = some (fs, vs) →
      fs.length = vs.length →
      (Playlist.getAll s).find? (fun item =>
        (fs.zip vs).all (fun p => Metadata.lookup item.metadata p.1 = some p.2)) = some e →
      ∃ s', Roll.upsertItem s blob md opts =
          Except.ok (s', { id := e.id, inserted := false, matchedId := some e.id })) ∧
    (∀ i, opts.id = some i →
      s.items.find? (fun x => x.id = i) = none →
      opts.matchBy = none →
      Roll.upsertItem s blob md opts =
        Except.ok ((Playlist.add s (some blob) md opts.queueIndex).1,
          { id := (Playlist.add s (some blob) md opts.queueIndex).2,
            inserted := true, matchedId := none })) ∧
    (∀ i fs vs, opts.id = some i →
      s.items.find? (fun x => x.id = i) = none →
      opts.matchBy = some (fs, vs) →
      fs.length = vs.length →
      (Playlist.getAll s).find? (fun item =>
        (fs.zip vs).all (fun p => Metadata.lookup item.metadata p.1 = some p.2)) = none →
      Roll.upsertItem s blob md opts =
        Except.ok ((Playlist.add s (some blob) md opts.queueIndex).1,
          { id := (Playlist.add s (some blob) md opts.queueIndex).2,
            inserted := true, matchedId := none })) := by
  refine ⟨?_, ?_, ?_, ?_⟩
  · intro i e hoid he
    have hid : e.id = i := by simpa using List.find?_some he
    simp only [Roll.upsertItem, hoid, he, Playlist.updateItem]
    refine ⟨_, rfl, ?_, ?_⟩
    · rw [List.map_map]
      apply List.map_congr_left
      intro x hx
      by_cases hxi : x.id = i <;> simp [hxi]
    · intro e' he' hne
      simp only [List.mem_map]
      exact ⟨e', he', by simp [hne]⟩
  · intro i fs vs e hoid hnone hmb harity hmeta
    have hmem : e ∈ s.items := by
      have h1 : e ∈ Playlist.getAll s := List.mem_of_find?_eq_some hmeta
      exact (List.mergeSort_perm s.items _).subset h1
    have hfim : Roll.findItemByMetadata s fs vs = Except.ok (some e) := by
      unfold Roll.findItemByMetadata
      rw [if_neg (by omega), hmeta]
    cases hfind : s.items.find? (fun x => x.id = e.id) with
    | none =>
        exfalso
        have := List.find?_eq_none.mp hfind e hmem
        simp at this
    | some e2 =>
        simp only [Roll.upsertItem, hoid, hnone, hmb, hfim, Except.map, Option.map_some']
        simp only [Playlist.updateItem, hfind]
        exact ⟨_, rfl⟩
  · intro i hoid hnone hmb
    simp only [Roll.upsertItem, hoid, hnone, hmb]
  · intro i fs vs hoid hnone hmb harity hmeta
    have hfim : Roll.findItemByMetadata s fs vs = Except.ok none := by
      unfold Roll.findItemByMetadata
      rw [if_neg (by omega), hmeta]
    simp only [Roll.upsertItem, hoid, hnone, hmb, hfim, Except.map, Option.map_none']

/-- Store used by the upsert match-priority witness. -/
def upsertWitnessStore : Store :=
  { items := [{ id := 1, blob := some 5, queueIndex := 0, metadata := [("f", MetaVal.str "x")] }, { id := 2, blob := some 6, queueIndex := 1, metadata := [("f", MetaVal.str "y")] }], nextId := 3 }

/-- Witness for upsert_match_priority: with two stored records, an upsert
supplying id 1 together with a matchBy predicate that would match record 2
updates record 1. -/
theorem upsert_match_priority_witness :
    ∃ s', Roll.upsertItem upsertWitnessStore 9 [("f", MetaVal.str "z")]
        { id := some 1, matchBy := some (["f"], [MetaVal.str "y"]) } =
      Except.ok (s', { id := 1, inserted := false, matchedId := some 1 }) ∧
    s'.items.map (fun x => x.id) = upsertWitnessStore.items.map (fun x => x.id) ∧
    (∀ e', e' ∈ upsertWitnessStore.items → e'.id ≠ 1 → e' ∈ s'.items) :=
  (upsert_match_priority upsertWitnessStore 9 [("f", MetaVal.str "z")]
    { id := some 1, matchBy := some (["f"], [MetaVal.str "y"]) }).1 1
    { id := 1, blob := some 5, queueIndex := 0, metadata := [("f", MetaVal.str "x")] }
    rfl (by decide)

/-- Roll.queueNextSegment is a no-op while the in-flight gate is set. -/
theorem queueNextSegment_gate (items : List QueueItem) (cbs : RollCallbacks)
    (st : RollState) (b : ℚ) (hgate : st.nextSegmentScheduled = true) :
    Roll.queueNextSegment items cbs st b = (st, none, false) := by
  simp [Roll.queueNextSegment, hgate]

/-- A delivery on a nonempty playlist with a clear gate and every blob
present pushes the item at the cursor position modulo the length. -/
theorem queueNextSegment_pushes (items : List QueueItem) (cbs : RollCallbacks)
    (st : RollState) (b : ℚ) (hgate : st.nextSegmentScheduled = false)
    (hlen : items.length ≠ 0) (hblobs : ∀ e ∈ items, e.blob.isSome) :
    (Roll.queueNextSegment items cbs st b).2.1 =
      some (st.bufferedQueueIndex % items.length) := by
  have hmem := List.get_mem items (st.bufferedQueueIndex % items.length)
    (Nat.mod_lt _ (Nat.pos_of_ne_zero hlen))
  have hblob := hblobs _ hmem
  simp only [Roll.queueNextSegment, hgate, Bool.false_eq_true, if_false, dif_neg hlen]
  cases hb : (items.get ⟨st.bufferedQueueIndex % items.length,
      Nat.mod_lt _ (Nat.pos_of_ne_zero hlen)⟩).blob with
  | none => rw [hb] at hblob; simp at hblob
  | some v =>
      by_cases hc : 0 < b ∧ st.pendingTrimBoundary = none <;> simp [hc]

/-- A playlist with more segments to deliver is nonempty. -/
theorem hasMore_length_ne_zero (items : List QueueItem) (cbs : RollCallbacks)
    (st : RollState) (h : Roll.hasMoreSegments items cbs st = true) :
    items.length ≠ 0 := by
  intro hlen
  simp [Roll.hasMoreSegments, hlen] at h

/-- The threshold test holds exactly when something is buffered and the
remaining buffered time is at most the threshold. -/
theorem shouldQueue_iff (p b t : ℚ) (hb : 0 ≤ b) :
    Roll.shouldQueueNextVideo p b t = true ↔ (0 < b ∧ b - p ≤ t) := by
  unfold Roll.shouldQueueNextVideo
  by_cases hb0 : b = 0
  · simp [hb0]
  · have : 0 < b := lt_of_le_of_ne hb (Ne.symm hb0)
    simp [hb0, this]

/-- The cursor and the in-flight gate fully determine hasMoreSegments. -/
theorem hasMore_congr (items : List QueueItem) (cbs : RollCallbacks)
    (st st' : RollState) (h : st.bufferedQueueIndex = st'.bufferedQueueIndex) :
    Roll.hasMoreSegments items cbs st = Roll.hasMoreSegments items cbs st' := by
  simp [Roll.hasMoreSegments, h]

/-- A tick whose pending trim boundary has been reached pushes exactly what
the same tick pushes from the state with the boundary consumed and the
gate released. -/
theorem tick_trim_hit_pushed (items : List QueueItem) (cbs : RollCallbacks) (st : RollState)
    (p b t x : ℚ) (hpt : st.pendingTrimBoundary = some x) (hxp : x ≤ p) :
    (Roll.onTimeUpdate items cbs st p b t).pushedPos =
      (Roll.onTimeUpdate items cbs
        { st with pendingTrimBoundary := none, nextSegmentScheduled := false } p b t).pushedPos := by
  simp only [Roll.onTimeUpdate, hpt, hxp, ite_true, apply_ite RollTickResult.pushedPos]

/-- The pushed position of a delivery depends only on the cursor and the
gate, not on the stored trim boundary or the buffered extent. -/
theorem queueNextSegment_pushed_congr (items : List QueueItem) (cbs : RollCallbacks)
    (s1 s2 : RollState) (b1 b2 : ℚ)
    (hidx : s1.bufferedQueueIndex = s2.bufferedQueueIndex)
    (hg : s1.nextSegmentScheduled = s2.nextSegmentScheduled) :
    (Roll.queueNextSegment items cbs s1 b1).2.1 = (Roll.queueNextSegment items cbs s2 b2).2.1 := by
  unfold Roll.queueNextSegment
  cases hgv : s2.nextSegmentScheduled
  · have hgv1 : s1.nextSegmentScheduled = false := hg.trans hgv
    by_cases hlen : items.length = 0
    · simp [hlen, hgv, hgv1]
    · simp only [hgv, hgv1, hidx, Bool.false_eq_true, if_false, dif_neg hlen]
      cases hblob : (items.get ⟨s2.bufferedQueueIndex % items.length,
          Nat.mod_lt _ (Nat.pos_of_ne_zero hlen)⟩).blob
      · simp
      · by_cases h1 : 0 < b1 ∧ s1.pendingTrimBoundary = none <;>
          by_cases h2 : 0 < b2 ∧ s2.pendingTrimBoundary = none <;>
          simp [h1, h2]
  · have hgv1 : s1.nextSegmentScheduled = true := hg.trans hgv
    simp [hgv, hgv1]

/-- A tick whose pending trim boundary has not been reached keeps the gate
as it was; its pushed position agrees with the tick from the state with no
stored boundary. -/
theorem tick_trim_miss_pushed (items : List QueueItem) (cbs : RollCallbacks) (st : RollState)
    (p b t x : ℚ) (hpt : st.pendingTrimBoundary = some x) (hxp : ¬ x ≤ p) :
    (Roll.onTimeUpdate items cbs st p b t).pushedPos =
      (Roll.onTimeUpdate items cbs { st with pendingTrimBoundary := none } p b t).pushedPos := by
  simp only [Roll.onTimeUpdate, hpt, hxp, if_false, apply_ite RollTickResult.pushedPos]
  have h1 : Roll.hasMoreSegments items cbs
      ({ st with pendingTrimBoundary := none } : RollState) =
      Roll.hasMoreSegments items cbs st :=
    hasMore_congr items cbs _ st rfl
  simp only [h1]
  by_cases hmore : Roll.hasMoreSegments items cbs st = true
  · simp only [hmore, Bool.not_true, Bool.false_eq_true, if_false]
    by_cases hgate : st.nextSegmentScheduled = true
    · simp [hgate]
    · have hgf : st.nextSegmentScheduled = false := by
        cases h : st.nextSegmentScheduled
        · rfl
        · exact absurd h hgate
      by_cases hsq : Roll.shouldQueueNextVideo p b t = true
      · simp only [hgf, hsq, Bool.not_false, Bool.and_self, if_true]
        exact queueNextSegment_pushed_congr items cbs _ _ b b rfl rfl
      · have hsf : Roll.shouldQueueNextVideo p b t = false := by
          cases h : Roll.shouldQueueNextVideo p b t
          · rfl
          · exact absurd h hsq
        simp [hsf, hgf]
  · have hmf : Roll.hasMoreSegments items cbs st = false := by
      cases h : Roll.hasMoreSegments items cbs st
      · rfl
      · exact absurd h hmore
    simp [hmf]

/-- On a tick with no stored trim boundary, a push happens exactly when
more segments remain, the gate is clear, and the threshold test passes. -/
theorem tick_pending_none (items : List QueueItem) (cbs : RollCallbacks) (st : RollState)
    (p b t : ℚ) (hpt : st.pendingTrimBoundary = none) (hb : 0 ≤ b)
    (hblobs : ∀ e ∈ items, e.blob.isSome) :
    ((Roll.onTimeUpdate items cbs st p b t).pushedPos.isSome = true ↔
      (Roll.hasMoreSegments items cbs st = true ∧ st.nextSegmentScheduled = false ∧
       0 < b ∧ b - p ≤ t)) := by
  by_cases hmore : Roll.hasMoreSegments items cbs st = true
  · by_cases hgate : st.nextSegmentScheduled = true
    · simp only [Roll.onTimeUpdate, hpt, apply_ite RollTickResult.pushedPos, hmore, hgate]
      simp
    · have hgf : st.nextSegmentScheduled = false := by
        cases h : st.nextSegmentScheduled
        · rfl
        · exact absurd h hgate
      by_cases hsq : Roll.shouldQueueNextVideo p b t = true
      · simp only [Roll.onTimeUpdate, hpt, apply_ite RollTickResult.pushedPos, hmore, hgf, hsq,
          Bool.not_true, Bool.false_eq_true, if_false, Bool.not_false, Bool.and_self, if_true]
        rw [queueNextSegment_pushes items cbs
          { bufferedQueueIndex := st.bufferedQueueIndex, pendingTrimBoundary := none,
            nextSegmentScheduled := false, totalItems := items.length } b rfl
          (hasMore_length_ne_zero items cbs st hmore) hblobs]
        simp [hmore, (shouldQueue_iff p b t hb).mp hsq]
      · have hsf : Roll.shouldQueueNextVideo p b t = false := by
          cases h : Roll.shouldQueueNextVideo p b t
          · rfl
          · exact absurd h hsq
        simp only [Roll.onTimeUpdate, hpt, apply_ite RollTickResult.pushedPos, hmore, hgf, hsf,
          Bool.not_true, Bool.false_eq_true, if_false, Bool.and_false, Option.isSome_none]
        constructor
        · intro h
          simp at h
        · rintro ⟨h1, h2, h3, h4⟩
          exact absurd ((shouldQueue_iff p b t hb).mpr ⟨h3, h4⟩) (by simp [hsf])
  · have hmf : Roll.hasMoreSegments items cbs st = false := by
      cases h : Roll.hasMoreSegments items cbs st
      · rfl
      · exact absurd h hmore
    simp only [Roll.onTimeUpdate, hpt, apply_ite RollTickResult.pushedPos, hmf]
    simp [hmf]

/-- C2: on one feedback tick with playback position p, buffered end b and
threshold t, a segment is pushed exactly when more segments remain, the
in-flight gate is clear after the pending-trim step at the head of the
tick (a boundary that playback has reached clears the gate), b is
positive, and the remaining buffered time b - p has fallen to the
threshold; in particular no segment is ever pushed while one is in flight
(the gate set and not cleared by the trim step). -/
theorem threshold_scheduling (items : List QueueItem) (cbs : RollCallbacks) (st : RollState)
    (p b t : ℚ) (hb : 0 ≤ b) (hblobs : ∀ e ∈ items, e.blob.isSome) :
    ((Roll.onTimeUpdate items cbs st p b t).pushedPos.isSome = true ↔
      (Roll.hasMoreSegments items cbs st = true ∧
       (match st.pendingTrimBoundary with
        | some x => if x ≤ p then false else st.nextSegmentScheduled
        | none => st.nextSegmentScheduled) = false ∧
       0 < b ∧ b - p ≤ t)) ∧
    ((st.nextSegmentScheduled = true ∧
      (match st.pendingTrimBoundary with
       | some x => if x ≤ p then false else st.nextSegmentScheduled
       | none => st.nextSegmentScheduled) = true) →
     (Roll.onTimeUpdate items cbs st p b t).pushedPos = none) := by
  have hiff : (Roll.onTimeUpdate items cbs st p b t).pushedPos.isSome = true ↔
      (Roll.hasMoreSegments items cbs st = true ∧
       (match st.pendingTrimBoundary with
        | some x => if x ≤ p then false else st.nextSegmentScheduled
        | none => st.nextSegmentScheduled) = false ∧
       0 < b ∧ b - p ≤ t) := by
    cases hpt : st.pendingTrimBoundary with
    | none => simpa using tick_pending_none items cbs st p b t hpt hb hblobs
    | some x =>
        by_cases hxp : x ≤ p
        · rw [show (Roll.onTimeUpdate items cbs st p b t).pushedPos.isSome =
              (Roll.onTimeUpdate items cbs
                { st with pendingTrimBoundary := none, nextSegmentScheduled := false }
                p b t).pushedPos.isSome from
            congrArg Option.isSome (tick_trim_hit_pushed items cbs st p b t x hpt hxp)]
          have h2 := tick_pending_none items cbs
            { st with pendingTrimBoundary := none, nextSegmentScheduled := false } p b t rfl hb hblobs
          rw [hasMore_congr items cbs
            { bufferedQueueIndex := st.bufferedQueueIndex, pendingTrimBoundary := none,
              nextSegmentScheduled := false, totalItems := st.totalItems } st rfl] at h2
          simpa [hxp] using h2
        · rw [show (Roll.onTimeUpdate items cbs st p b t).pushedPos.isSome =
              (Roll.onTimeUpdate items cbs { st with pendingTrimBoundary := none }
                p b t).pushedPos.isSome from
            congrArg Option.isSome (tick_trim_miss_pushed items cbs st p b t x hpt hxp)]
          have h2 := tick_pending_none items cbs
            { st with pendingTrimBoundary := none } p b t rfl hb hblobs
          rw [hasMore_congr items cbs
            { bufferedQueueIndex := st.bufferedQueueIndex, pendingTrimBoundary := none,
              nextSegmentScheduled := st.nextSegmentScheduled, totalItems := st.totalItems } st rfl] at h2
          simpa [hxp] using h2
  refine ⟨hiff, ?_⟩
  rintro ⟨hgate, hafter⟩
  cases hps : (Roll.onTimeUpdate items cbs st p b t).pushedPos with
  | none => rfl
  | some v =>
      have h := hiff.mp (by simp [hps])
      rw [hafter] at h
      simp at h

/-- Witness for threshold_scheduling: a one-item playlist, clear gate,
position 5, buffered end 6 and threshold 4 pushes a segment. -/
theorem threshold_scheduling_witness :
    (Roll.onTimeUpdate [{ id := 1, blob := some 7, queueIndex := 0, metadata := [] }]
      { onRollEnd := false, onStreamEnd := false } (RollState.attached 1) 5 6 4).pushedPos.isSome
      = true :=
  (threshold_scheduling [{ id := 1, blob := some 7, queueIndex := 0, metadata := [] }]
    { onRollEnd := false, onStreamEnd := false } (RollState.attached 1) 5 6 4
    (by norm_num) (by decide)).1.mpr
    ⟨by decide, by decide, by norm_num, by norm_num⟩

/-- A delivery with empty buffered extent from a clean scheduler state
advances the cursor by one, leaves the gate clear and no boundary stored,
delivers the item at the cursor modulo the length, and fires the roll-end
callback exactly when the new cursor is a multiple of the length. -/
theorem queueNextSegment_zero (items : List QueueItem) (cbs : RollCallbacks) (k m : Nat)
    (hk : items.length = k) (h0 : 0 < k) (hblobs : ∀ e ∈ items, e.blob.isSome) :
    Roll.queueNextSegment items cbs
      { bufferedQueueIndex := m, pendingTrimBoundary := none,
        nextSegmentScheduled := false, totalItems := k } 0 =
      ({ bufferedQueueIndex := m + 1, pendingTrimBoundary := none,
         nextSegmentScheduled := false, totalItems := k },
       some (m % k),
       cbs.onRollEnd && decide ((m + 1) % k = 0)) := by
  have hlen : items.length ≠ 0 := by omega
  have hmem := List.get_mem items (m % items.length) (Nat.mod_lt _ (Nat.pos_of_ne_zero hlen))
  have hblob := hblobs _ hmem
  simp only [Roll.queueNextSegment, Bool.false_eq_true, if_false, dif_neg hlen]
  cases hbv : (items.get ⟨m % items.length, Nat.mod_lt _ (Nat.pos_of_ne_zero hlen)⟩).blob with
  | none => rw [hbv] at hblob; simp at hblob
  | some v =>
      have : ¬ ((0 : ℚ) < 0 ∧ (none : Option ℚ) = none) := by simp
      simp [this, hk]

/-- Closed form of the scheduler state after n simulated delivery
attempts: with a roll-end callback the cursor stops at the playlist
length, without one it counts every tick; the gate stays clear and no trim
boundary is stored. -/
theorem runTicks_closed (items : List QueueItem) (cbs : RollCallbacks) (k : Nat)
    (hk : items.length = k) (h0 : 0 < k) (hblobs : ∀ e ∈ items, e.blob.isSome) (n : Nat) :
    Roll.runTicks items cbs n =
      { bufferedQueueIndex := if cbs.onRollEnd then min n k else n,
        pendingTrimBoundary := none, nextSegmentScheduled := false, totalItems := k } := by
  induction n with
  | zero =>
      simp only [Roll.runTicks, RollState.attached, hk]
      cases cbs.onRollEnd <;> simp
  | succ n ih =>
      rw [Roll.runTicks, ih]
      unfold Roll.deliveryTick
      cases hcb : cbs.onRollEnd with
      | false =>
          have hmore : Roll.hasMoreSegments items cbs
              { bufferedQueueIndex := n, pendingTrimBoundary := none,
                nextSegmentScheduled := false, totalItems := k } = true := by
            simp [Roll.hasMoreSegments, hcb, hk]
            omega
          simp only [hcb, Bool.false_eq_true, if_false, hmore, if_true]
          rw [queueNextSegment_zero items cbs k n hk h0 hblobs]
      | true =>
          by_cases hnk : n < k
          · have hmore : Roll.hasMoreSegments items cbs
                { bufferedQueueIndex := min n k, pendingTrimBoundary := none,
                  nextSegmentScheduled := false, totalItems := k } = true := by
              simp [Roll.hasMoreSegments, hcb, hk]
              omega
            simp only [hcb, if_true, hmore]
            rw [queueNextSegment_zero items cbs k (min n k) hk h0 hblobs]
            have h1 : min n k = n := by omega
            have h2 : min (n + 1) k = n + 1 := by omega
            simp [h1, h2]
          · have hmf : Roll.hasMoreSegments items cbs
                { bufferedQueueIndex := min n k, pendingTrimBoundary := none,
                  nextSegmentScheduled := false, totalItems := k } = false := by
              simp [Roll.hasMoreSegments, hcb, hk]
              omega
            simp only [hcb, if_true, hmf, Bool.false_eq_true, if_false]
            have : min n k = k := by omega
            have h2 : min (n + 1) k = k := by omega
            simp [this, h2]

/-- C3: for a playlist of size k with every blob present, simulated
deliveries behave as follows.  With a roll-end callback registered the
cursor after n attempts is min n k, more segments remain exactly while
fewer than k deliveries happened, attempt n+1 delivers exactly when n < k,
and the callback fires on attempt n+1 exactly when it is the k-th delivery
(the moment the cursor becomes the positive multiple k) — so it fires
exactly once for the pass and "has more" turns false immediately after the
k-th delivery.  With no callback registered, every attempt delivers — the
cursor after n attempts is n, "has more" never turns false, the callback
never fires, and attempt n+1 delivers the item at position n modulo k (the
cursor wraps through the playlist indefinitely). -/
theorem cycle_detection (items : List QueueItem) (cbs : RollCallbacks) (k n : Nat)
    (hk : items.length = k) (h0 : 0 < k) (hblobs : ∀ e ∈ items, e.blob.isSome) :
    (cbs.onRollEnd = true →
      (Roll.runTicks items cbs n).bufferedQueueIndex = min n k ∧
      Roll.hasMoreSegments items cbs (Roll.runTicks items cbs n) = decide (n < k) ∧
      (Roll.deliveryTick items cbs (Roll.runTicks items cbs n)).2.2 = decide (n + 1 = k) ∧
      (Roll.deliveryTick items cbs (Roll.runTicks items cbs n)).2.1.isSome = decide (n < k)) ∧
    (cbs.onRollEnd = false →
      (Roll.runTicks items cbs n).bufferedQueueIndex = n ∧
      Roll.hasMoreSegments items cbs (Roll.runTicks items cbs n) = true ∧
      (Roll.deliveryTick items cbs (Roll.runTicks items cbs n)).2.1 = some (n % k) ∧
      (Roll.deliveryTick items cbs (Roll.runTicks items cbs n)).2.2 = false) := by
  rw [runTicks_closed items cbs k hk h0 hblobs n]
  constructor
  · intro hcb
    have hmink : (min n k < k) ↔ (n < k) := by omega
    refine ⟨by simp [hcb], ?_, ?_, ?_⟩
    · simp only [Roll.hasMoreSegments, hk, hcb, if_true]
      simp only [if_neg (by omega : ¬ k = 0)]
      simp [hcb]
    · unfold Roll.deliveryTick
      by_cases hnk : n < k
      · have hmore : Roll.hasMoreSegments items cbs
            { bufferedQueueIndex := if cbs.onRollEnd = true then min n k else n,
              pendingTrimBoundary := none, nextSegmentScheduled := false, totalItems := k } = true := by
          simp [Roll.hasMoreSegments, hk, hcb]
          omega
        rw [if_pos hmore]
        simp only [hcb, if_true]
        rw [queueNextSegment_zero items cbs k (min n k) hk h0 hblobs]
        have h1 : min n k = n := by omega
        have hiff : ((n + 1) % k = 0) ↔ (n + 1 = k) := by
          constructor
          · intro h
            rcases Nat.lt_or_ge (n + 1) k with hlt | hge
            · have := Nat.mod_eq_of_lt hlt
              omega
            · have hle : n + 1 ≤ k := by omega
              omega
          · intro h
            rw [h]
            exact Nat.mod_self k
        simp [hcb, h1, hiff]
      · have hmf : Roll.hasMoreSegments items cbs
            { bufferedQueueIndex := if cbs.onRollEnd = true then min n k else n,
              pendingTrimBoundary := none, nextSegmentScheduled := false, totalItems := k } = false := by
          simp [Roll.hasMoreSegments, hk, hcb]
          omega
        rw [if_neg (by simp [hmf])]
        have : ¬ (n + 1 = k) := by omega
        simp [this]
    · unfold Roll.deliveryTick
      by_cases hnk : n < k
      · have hmore : Roll.hasMoreSegments items cbs
            { bufferedQueueIndex := if cbs.onRollEnd = true then min n k else n,
              pendingTrimBoundary := none, nextSegmentScheduled := false, totalItems := k } = true := by
          simp [Roll.hasMoreSegments, hk, hcb]
          omega
        rw [if_pos hmore]
        simp only [hcb, if_true]
        rw [queueNextSegment_zero items cbs k (min n k) hk h0 hblobs]
        simp [hnk]
      · have hmf : Roll.hasMoreSegments items cbs
            { bufferedQueueIndex := if cbs.onRollEnd = true then min n k else n,
              pendingTrimBoundary := none, nextSegmentScheduled := false, totalItems := k } = false := by
          simp [Roll.hasMoreSegments, hk, hcb]
          omega
        rw [if_neg (by simp [hmf])]
        simp [hnk]
  · intro hcb
    have hmore : Roll.hasMoreSegments items cbs
        { bufferedQueueIndex := if cbs.onRollEnd = true then min n k else n,
          pendingTrimBoundary := none, nextSegmentScheduled := false, totalItems := k } = true := by
      simp [Roll.hasMoreSegments, hk, hcb]
      omega
    refine ⟨by simp [hcb], hmore, ?_, ?_⟩
    · unfold Roll.deliveryTick
      rw [if_pos hmore]
      simp only [hcb, Bool.false_eq_true, if_false]
      rw [queueNextSegment_zero items cbs k n hk h0 hblobs]
    · unfold Roll.deliveryTick
      rw [if_pos hmore]
      simp only [hcb, Bool.false_eq_true, if_false]
      rw [queueNextSegment_zero items cbs k n hk h0 hblobs]
      simp [hcb]

/-- Witness for cycle_detection: on a two-item playlist with the roll-end
callback registered, the second delivery attempt fires the callback. -/
theorem cycle_detection_witness :
    (Roll.deliveryTick
      [{ id := 1, blob := some 7, queueIndex := 0, metadata := [] }, { id := 2, blob := some 8, queueIndex := 1, metadata := [] }]
      { onRollEnd := true, onStreamEnd := false }
      (Roll.runTicks
        [{ id := 1, blob := some 7, queueIndex := 0, metadata := [] }, { id := 2, blob := some 8, queueIndex := 1, metadata := [] }]
        { onRollEnd := true, onStreamEnd := false } 1)).2.2 = decide (1 + 1 = 2) :=
  ((cycle_detection
    [{ id := 1, blob := some 7, queueIndex := 0, metadata := [] }, { id := 2, blob := some 8, queueIndex := 1, metadata := [] }]
    { onRollEnd := true, onStreamEnd := false } 2 1 rfl (by decide) (by decide)).1 rfl).2.2.1

/-- C4: Playlist.add appends at position count when no insert position is
supplied; a supplied position is clamped to the closed range from 0 to
count (kept verbatim when already in range); the new record always gets
the id returned by the call; when the unclamped position lies strictly
below count, every pre-existing record keeps its list slot and id, its
position incremented by one exactly when it was at or above the insert
position and untouched otherwise; and when the unclamped position is at
least count no pre-existing record changes at all. -/
theorem add_shift_correct (s : Store) (blob : Option Nat) (md : Metadata) :
    ((Playlist.add s blob md none).2 = s.nextId ∧
     (Playlist.add s blob md none).1.items.getLast? =
       some { id := s.nextId, blob := blob, queueIndex := (s.items.length : Int), metadata := md }) ∧
    (∀ i : Int,
      (Playlist.add s blob md (some i)).2 = s.nextId ∧
      (Playlist.add s blob md (some i)).1.items.getLast? =
        some { id := s.nextId, blob := blob,
               queueIndex := max 0 (min i (s.items.length : Int)), metadata := md } ∧
      0 ≤ max 0 (min i (s.items.length : Int)) ∧
      max 0 (min i (s.items.length : Int)) ≤ (s.items.length : Int) ∧
      (0 ≤ i → i ≤ (s.items.length : Int) → max 0 (min i (s.items.length : Int)) = i)) ∧
    (∀ i : Int, i < (s.items.length : Int) → ∀ (j : Nat) (hj : j < s.items.length),
      ∃ hj2 : j < (Playlist.add s blob md (some i)).1.items.length,
        ((Playlist.add s blob md (some i)).1.items.get ⟨j, hj2⟩).id = (s.items.get ⟨j, hj⟩).id ∧
        ((Playlist.add s blob md (some i)).1.items.get ⟨j, hj2⟩).queueIndex =
          (if i ≤ (s.items.get ⟨j, hj⟩).queueIndex then (s.items.get ⟨j, hj⟩).queueIndex + 1
           else (s.items.get ⟨j, hj⟩).queueIndex)) ∧
    (∀ i : Int, (s.items.length : Int) ≤ i →
      (Playlist.add s blob md (some i)).1.items =
        s.items ++ [{ id := s.nextId, blob := blob,
                      queueIndex := (s.items.length : Int), metadata := md }]) := by
  refine ⟨⟨rfl, ?_⟩, ?_, ?_, ?_⟩
  · simp [Playlist.add, List.getLast?_concat]
  · intro i
    refine ⟨rfl, ?_, le_max_left _ _, ?_, ?_⟩
    · simp [Playlist.add, List.getLast?_concat]
    · have hn : (0 : Int) ≤ (s.items.length : Int) := Int.natCast_nonneg _
      omega
    · intro h1 h2
      omega
  · intro i hi j hj
    have hshift : (Playlist.add s blob md (some i)).1.items =
        (s.items.map (fun e =>
          if i ≤ e.queueIndex then { e with queueIndex := e.queueIndex + 1 } else e)) ++
        [{ id := s.nextId, blob := blob,
           queueIndex := max 0 (min i (s.items.length : Int)), metadata := md }] := by
      simp [Playlist.add, hi]
    have hlen : j < (Playlist.add s blob md (some i)).1.items.length := by
      rw [hshift]
      simp
      omega
    refine ⟨hlen, ?_, ?_⟩
    · simp only [List.get_eq_getElem, hshift]
      rw [List.getElem_append_left (by simpa using hj)]
      simp only [List.getElem_map]
      by_cases hq : i ≤ s.items[j].queueIndex <;> simp [hq]
    · simp only [List.get_eq_getElem, hshift]
      rw [List.getElem_append_left (by simpa using hj)]
      simp only [List.getElem_map]
      by_cases hq : i ≤ s.items[j].queueIndex <;> simp [hq]
  · intro i hi
    have h1 : ¬ i < (s.items.length : Int) := by omega
    have h2 : min i (s.items.length : Int) = (s.items.length : Int) := by omega
    have h3 : max 0 (s.items.length : Int) = (s.items.length : Int) := by
      have : (0 : Int) ≤ (s.items.length : Int) := Int.natCast_nonneg _
      omega
    simp [Playlist.add, h1, h2, h3]

/-- Witness for add_shift_correct: adding to an empty store with insert
position 5 appends the record at position 0. -/
theorem add_shift_correct_witness :
    (Playlist.add { items := [], nextId := 1 } (some 9) [] (some 5)).1.items =
      [] ++ [{ id := 1, blob := some 9, queueIndex := ((List.length ([] : List QueueItem) : Nat) : Int), metadata := [] }] :=
  (add_shift_correct { items := [], nextId := 1 } (some 9) []).2.2.2 5 (by decide)

/-- One queue operation of the store interface exercised by the index
invariant: add (with or without an insert position), remove, reorder. -/
inductive QueueOp where
  | add (blob : Option Nat) (md : Metadata) (insertIndex : Option Int)
  | remove (rid : Nat)
  | reorder (a b : Int)

/-- Application of one operation; a failing remove or reorder (rejected by
the store) leaves the store unchanged, which is what an observer sees at
the next quiescent point. -/
def applyQueueOp (s : Store) : QueueOp → Store
  | QueueOp.add blob md i => (Playlist.add s blob md i).1
  | QueueOp.remove rid => (Playlist.remove s rid).getD s
  | QueueOp.reorder a b => (Playlist.reorder s a b).getD s

/-- The store after a sequence of operations from the empty store. -/
def runQueueOps (ops : List QueueOp) : Store := ops.foldl applyQueueOp Store.empty

/-- The list of positions stored in a store. -/
def qisOf (s : Store) : List Int := s.items.map (fun e => e.queueIndex)

/-- The integers 0 to n-1 in order. -/
def rangeInt (n : Nat) : List Int := (List.range n).map Nat.cast

/-- The store invariant: record ids are distinct and below the key
counter, and the stored positions are a permutation of 0 to count-1. -/
def StoreOk (s : Store) : Prop :=
  (s.items.map (fun e => e.id)).Nodup ∧
  (∀ e ∈ s.items, e.id < s.nextId) ∧
  (qisOf s).Perm (rangeInt s.items.length)

theorem rangeInt_succ (n : Nat) : rangeInt (n + 1) = rangeInt n ++ [(n : Int)] := by
  simp [rangeInt, List.range_succ]

theorem rangeInt_nodup (n : Nat) : (rangeInt n).Nodup := by
  unfold rangeInt
  exact List.Nodup.map (fun a b h => by exact_mod_cast h) (List.nodup_range n)

theorem mem_rangeInt (n : Nat) (v : Int) : v ∈ rangeInt n ↔ 0 ≤ v ∧ v < n := by
  unfold rangeInt
  constructor
  · intro h
    rcases List.mem_map.mp h with ⟨j, hj, rfl⟩
    have := List.mem_range.mp hj
    omega
  · rintro ⟨h0, h1⟩
    refine List.mem_map.mpr ⟨v.toNat, List.mem_range.mpr (by omega), by omega⟩

/-- Swapping the last two elements across appended singletons is a
permutation. -/
theorem perm_append_swap {α : Type} (l : List α) (x y : α) :
    ((l ++ [x]) ++ [y]).Perm ((l ++ [y]) ++ [x]) := by
  have h1 : ((l ++ [x]) ++ [y]) = l ++ ([x] ++ [y]) := by simp
  have h2 : ((l ++ [y]) ++ [x]) = l ++ ([y] ++ [x]) := by simp
  rw [h1, h2]
  exact List.Perm.append_left l (List.Perm.swap y x [])

/-- Shifting every position at or above the insert point up by one and
appending the clamped insert point permutes into the next full range. -/
theorem shift_up_perm (n : Nat) (i : Int) (h : i < (n : Int)) :
    (((rangeInt n).map (fun q => if i ≤ q then q + 1 else q)) ++ [max 0 i]).Perm
      (rangeInt (n + 1)) := by
  induction n with
  | zero =>
      have hm : max 0 i = 0 := by omega
      simp [rangeInt, hm, List.range_succ]
  | succ m ih =>
      by_cases him : i < (m : Int)
      · have hin : i ≤ (m : Int) := le_of_lt him
        have hfm : (if i ≤ (m : Int) then (m : Int) + 1 else (m : Int)) = (m : Int) + 1 := by
          rw [if_pos hin]
        have hcast : (((m + 1 : Nat)) : Int) = (m : Int) + 1 := by push_cast; ring
        rw [rangeInt_succ (m + 1)]
        nth_rewrite 1 [rangeInt_succ m]
        rw [List.map_append]
        simp only [List.map_cons, List.map_nil, hfm, hcast]
        exact (perm_append_swap _ _ _).trans ((ih him).append_right _)
      · have him2 : i = (m : Int) := by
          have h2 : i < ((m : Int)) + 1 := by
            have h3 := h
            push_cast at h3
            omega
          omega
        have hmax : max 0 i = (m : Int) := by omega
        have hmap : (rangeInt m).map (fun q => if i ≤ q then q + 1 else q) = rangeInt m := by
          have hpt : ∀ q ∈ rangeInt m, (fun q => if i ≤ q then q + 1 else q) q = q := by
            intro q hq
            have hb := (mem_rangeInt m q).mp hq
            have : ¬ i ≤ q := by omega
            simp [this]
          rw [List.map_congr_left hpt]
          simp
        have hfm : (if i ≤ (m : Int) then (m : Int) + 1 else (m : Int)) = (m : Int) + 1 := by
          rw [if_pos (by omega)]
        have hcast : (((m + 1 : Nat)) : Int) = (m : Int) + 1 := by push_cast; ring
        rw [rangeInt_succ (m + 1)]
        nth_rewrite 1 [rangeInt_succ m]
        rw [List.map_append]
        simp only [List.map_cons, List.map_nil, hfm, hmap, hmax, hcast]
        rw [rangeInt_succ m]
        exact perm_append_swap _ _ _

/-- Erasing one position from a full range and shifting every greater
position down by one permutes into the previous full range. -/
theorem shift_down_perm (n : Nat) (q : Int) (h0 : 0 ≤ q) (h1 : q < (n : Int)) :
    (((rangeInt n).erase q).map (fun v => if q + 1 ≤ v then v - 1 else v)).Perm
      (rangeInt (n - 1)) := by
  induction n with
  | zero => exact absurd h1 (by omega)
  | succ m ih =>
      by_cases hqm : q < (m : Int)
      · have hqmem : q ∈ rangeInt m := (mem_rangeInt m q).mpr ⟨h0, hqm⟩
        rw [rangeInt_succ m, List.erase_append_left _ hqmem, List.map_append]
        have hgm : (if q + 1 ≤ (m : Int) then (m : Int) - 1 else (m : Int)) = (m : Int) - 1 := by
          rw [if_pos (by omega)]
        simp only [List.map_cons, List.map_nil, hgm, Nat.add_sub_cancel]
        have hm1 : 1 ≤ m := by omega
        have hsplit : rangeInt m = rangeInt (m - 1) ++ [((m - 1 : Nat) : Int)] := by
          have h2 := rangeInt_succ (m - 1)
          rw [Nat.sub_add_cancel hm1] at h2
          exact h2
        have hcast : (((m - 1 : Nat)) : Int) = (m : Int) - 1 := by
          push_cast [hm1]
          ring
        nth_rewrite 2 [hsplit]
        rw [hcast]
        exact (ih hqm).append_right _
      · have hqm2 : q = (m : Int) := by
          have h2 : q < (m : Int) + 1 := by push_cast at h1; omega
          omega
        have hnot : q ∉ rangeInt m := by
          intro hq
          have := (mem_rangeInt m q).mp hq
          omega
        rw [rangeInt_succ m, List.erase_append_right _ hnot]
        have herase : ([((m : Int))] : List Int).erase q = [] := by
          rw [hqm2]
          simp
        rw [herase, List.append_nil]
        have hmap : (rangeInt m).map (fun v => if q + 1 ≤ v then v - 1 else v) = rangeInt m := by
          have hpt : ∀ v ∈ rangeInt m, (fun v => if q + 1 ≤ v then v - 1 else v) v = v := by
            intro v hv
            have hb := (mem_rangeInt m v).mp hv
            have : ¬ (q + 1 ≤ v) := by omega
            simp [this]
          rw [List.map_congr_left hpt]
          simp
        rw [hmap]
        simp

/-- A list with distinct record ids permutes into any chosen member
followed by the records with a different id. -/
theorem perm_cons_filter_of_nodup_ids (l : List QueueItem) (x : QueueItem)
    (hn : (l.map (fun e => e.id)).Nodup) (hx : x ∈ l) :
    l.Perm (x :: l.filter (fun e => e.id ≠ x.id)) := by
  induction l with
  | nil => cases hx
  | cons y tl ih =>
      rw [List.map_cons, List.nodup_cons] at hn
      rcases hn with ⟨hy, htl⟩
      by_cases hxy : y.id = x.id
      · have hxeq : x = y := by
          rcases List.mem_cons.mp hx with h | h
          · exact h
          · exact absurd (hxy ▸ (List.mem_map.mpr ⟨x, h, rfl⟩)) hy
        have hfil : tl.filter (fun e => e.id ≠ x.id) = tl := by
          rw [List.filter_eq_self]
          intro a ha
          have : a.id ≠ x.id := by
            intro hax
            exact hy (by rw [hxy]; exact hax ▸ (List.mem_map.mpr ⟨a, ha, rfl⟩))
          simpa using this
        have hyfalse : (decide (y.id ≠ x.id)) = false := by simp [hxy]
        rw [List.filter_cons_of_neg (by simp [hxy]), hfil, hxeq]
      · have hxtl : x ∈ tl := by
          rcases List.mem_cons.mp hx with h | h
          · exact absurd (by rw [h]) hxy
          · exact h
        have hperm := ih htl hxtl
        rw [List.filter_cons_of_pos (by simpa using hxy)]
        exact ((hperm.cons y).trans (List.Perm.swap x y _))

/-- Appending a record with a fresh id keeps the id list duplicate-free. -/
theorem nodup_ids_append_new (l : List QueueItem) (x : QueueItem)
    (hl : (l.map (fun e => e.id)).Nodup) (hx : ∀ e ∈ l, e.id ≠ x.id) :
    ((l ++ [x]).map (fun e => e.id)).Nodup := by
  rw [List.map_append]
  have hperm := List.perm_append_singleton x.id (l.map (fun e => e.id))
  refine hperm.symm.nodup ?_
  rw [List.nodup_cons]
  refine ⟨?_, hl⟩
  intro hc
  rcases List.mem_map.mp hc with ⟨e, he, heq⟩
  exact (hx e he) heq

/-- Mapping a position-only update leaves the id list unchanged. -/
theorem ids_map_preserve (l : List QueueItem) (f : QueueItem → QueueItem)
    (hf : ∀ e, (f e).id = e.id) :
    (l.map f).map (fun e => e.id) = l.map (fun e => e.id) := by
  rw [List.map_map]
  exact List.map_congr_left (fun e he => hf e)

/-- Playlist.add preserves the store invariant. -/
theorem storeOk_add (s : Store) (blob : Option Nat) (md : Metadata) (i : Option Int)
    (h : StoreOk s) : StoreOk (Playlist.add s blob md i).1 := by
  obtain ⟨hids, hbound, hperm⟩ := h
  have hfresh : ∀ e ∈ s.items, e.id ≠ s.nextId := by
    intro e he heq
    have := hbound e he
    omega
  cases i with
  | none =>
      refine ⟨?_, ?_, ?_⟩
      · simp only [Playlist.add]
        exact nodup_ids_append_new s.items _ hids hfresh
      · intro e he
        simp only [Playlist.add, List.mem_append, List.mem_singleton] at he
        rcases he with he | he
        · have := hbound e he
          simp only [Playlist.add]
          omega
        · simp only [Playlist.add]
          rw [he]
          show s.nextId < s.nextId + 1
          omega
      · simp only [Playlist.add, qisOf, List.map_append, List.length_append,
          List.map_cons, List.map_nil, List.length_cons, List.length_nil]
        rw [rangeInt_succ]
        exact hperm.append_right _
  | some iv =>
      by_cases hlt : iv < (s.items.length : Int)
      · have hshift : (Playlist.add s blob md (some iv)).1.items =
            (s.items.map (fun e =>
              if iv ≤ e.queueIndex then { e with queueIndex := e.queueIndex + 1 } else e)) ++
            [{ id := s.nextId, blob := blob,
               queueIndex := max 0 (min iv (s.items.length : Int)), metadata := md }] := by
          simp [Playlist.add, hlt]
        have hnext : (Playlist.add s blob md (some iv)).1.nextId = s.nextId + 1 := rfl
        refine ⟨?_, ?_, ?_⟩
        · rw [hshift]
          apply nodup_ids_append_new
          · rw [ids_map_preserve]
            · exact hids
            · intro e
              by_cases hq : iv ≤ e.queueIndex <;> simp [hq]
          · intro e he heq
            rcases List.mem_map.mp he with ⟨e0, he0, rfl⟩
            have hid0 : (if iv ≤ e0.queueIndex then { e0 with queueIndex := e0.queueIndex + 1 } else e0).id = e0.id := by
              by_cases hq : iv ≤ e0.queueIndex <;> simp [hq]
            rw [hid0] at heq
            exact (hfresh e0 he0) heq
        · intro e he
          rw [hshift] at he
          rw [hnext]
          simp only [List.mem_append, List.mem_singleton] at he
          rcases he with he | he
          · rcases List.mem_map.mp he with ⟨e0, he0, rfl⟩
            have := hbound e0 he0
            by_cases hq : iv ≤ e0.queueIndex <;> simp [hq] <;> omega
          · rw [he]
            show s.nextId < s.nextId + 1
            omega
        · simp only [qisOf]
          rw [hshift]
          have hclamp : max 0 (min iv (s.items.length : Int)) = max 0 iv := by omega
          have hqis : ((s.items.map (fun e =>
              if iv ≤ e.queueIndex then { e with queueIndex := e.queueIndex + 1 } else e)).map
                (fun e => e.queueIndex)) =
              (s.items.map (fun e => e.queueIndex)).map
                (fun q => if iv ≤ q then q + 1 else q) := by
            rw [List.map_map, List.map_map]
            apply List.map_congr_left
            intro e he
            by_cases hq : iv ≤ e.queueIndex <;> simp [hq]
          simp only [List.map_append, List.length_append, List.map_cons, List.map_nil,
            List.length_map, List.length_cons, List.length_nil]
          rw [hqis, hclamp]
          have hstep := (hperm.map (fun q => if iv ≤ q then q + 1 else q)).append_right
            ([max 0 iv] : List Int)
          exact hstep.trans (shift_up_perm s.items.length iv hlt)
      · have heq : (Playlist.add s blob md (some iv)).1.items =
            s.items ++ [{ id := s.nextId, blob := blob, queueIndex := max 0 (min iv (s.items.length : Int)), metadata := md }] := by
          simp [Playlist.add, hlt]
        have hclamp : max 0 (min iv (s.items.length : Int)) = (s.items.length : Int) := by
          have : (0 : Int) ≤ (s.items.length : Int) := Int.natCast_nonneg _
          omega
        refine ⟨?_, ?_, ?_⟩
        · rw [heq]
          exact nodup_ids_append_new s.items _ hids hfresh
        · intro e he
          rw [heq] at he
          simp only [List.mem_append, List.mem_singleton] at he
          have hnext : (Playlist.add s blob md (some iv)).1.nextId = s.nextId + 1 := rfl
          rw [hnext]
          rcases he with he | he
          · have := hbound e he
            omega
          · rw [he]
            show s.nextId < s.nextId + 1
            omega
        · simp only [qisOf]
          rw [heq]
          simp only [List.map_append, List.length_append, List.map_cons, List.map_nil,
            List.length_cons, List.length_nil]
          rw [hclamp, rangeInt_succ]
          exact hperm.append_right _

/-- Playlist.remove preserves the store invariant. -/
theorem storeOk_remove (s : Store) (rid : Nat) (h : StoreOk s) :
    StoreOk ((Playlist.remove s rid).getD s) := by
  obtain ⟨hids, hbound, hperm⟩ := h
  cases hfind : s.items.find? (fun e => e.id = rid) with
  | none =>
      simp only [Playlist.remove, hfind, Option.getD_none]
      exact ⟨hids, hbound, hperm⟩
  | some e =>
      have hmem : e ∈ s.items := List.mem_of_find?_eq_some hfind
      have heid : e.id = rid := by simpa using List.find?_some hfind
      simp only [Playlist.remove, hfind, Option.getD_some]
      have hgid : ∀ x : QueueItem,
          ((if e.queueIndex + 1 ≤ x.queueIndex then { x with queueIndex := x.queueIndex - 1 } else x) : QueueItem).id = x.id := by
        intro x
        by_cases hq : e.queueIndex + 1 ≤ x.queueIndex <;> simp [hq]
      have hsplit : s.items.Perm (e :: s.items.filter (fun x => x.id ≠ e.id)) :=
        perm_cons_filter_of_nodup_ids s.items e hids hmem
      have hfeq : s.items.filter (fun x => x.id ≠ rid) =
          s.items.filter (fun x => x.id ≠ e.id) := by rw [heid]
      refine ⟨?_, ?_, ?_⟩
      · rw [ids_map_preserve _ _ hgid]
        exact List.Nodup.sublist (List.Sublist.map _ (List.filter_sublist s.items)) hids
      · intro e' he'
        rcases List.mem_map.mp he' with ⟨x, hx, rfl⟩
        rw [hgid x]
        exact hbound x (List.mem_of_mem_filter hx)
      · have hqiscomp : ((s.items.filter (fun x => x.id ≠ rid)).map (fun x =>
            if e.queueIndex + 1 ≤ x.queueIndex then { x with queueIndex := x.queueIndex - 1 } else x)).map
              (fun x => x.queueIndex) =
            ((s.items.filter (fun x => x.id ≠ rid)).map (fun x => x.queueIndex)).map
              (fun v => if e.queueIndex + 1 ≤ v then v - 1 else v) := by
          rw [List.map_map, List.map_map]
          apply List.map_congr_left
          intro x hx
          by_cases hq : e.queueIndex + 1 ≤ x.queueIndex <;> simp [hq]
        have hqperm : (e.queueIndex :: (s.items.filter (fun x => x.id ≠ rid)).map
            (fun x => x.queueIndex)).Perm (rangeInt s.items.length) := by
          rw [hfeq]
          have h1 := hsplit.map (fun x => x.queueIndex)
          exact (h1.symm.trans hperm)
      
        have hin : e.queueIndex ∈ rangeInt s.items.length :=
          (List.cons_perm_iff_perm_erase.mp hqperm).1
        have hrest : ((s.items.filter (fun x => x.id ≠ rid)).map (fun x => x.queueIndex)).Perm
            ((rangeInt s.items.length).erase e.queueIndex) :=
          (List.cons_perm_iff_perm_erase.mp hqperm).2
        have hb := (mem_rangeInt s.items.length e.queueIndex).mp hin
        have hlenf : (s.items.filter (fun x => x.id ≠ rid)).length = s.items.length - 1 := by
          have hlen2 : s.items.length =
              (s.items.filter (fun x => x.id ≠ e.id)).length + 1 := by
            have h2 := hsplit.length_eq
            simpa using h2
          rw [hfeq]
          omega
        simp only [qisOf, List.length_map, hlenf, hqiscomp]
        refine (hrest.map _).trans ?_
        exact shift_down_perm s.items.length e.queueIndex hb.1 hb.2

/-- Playlist.reorder preserves the store invariant. -/
theorem storeOk_reorder (s : Store) (a b : Int) (h : StoreOk s) :
    StoreOk ((Playlist.reorder s a b).getD s) := by
  obtain ⟨hids, hbound, hperm⟩ := h
  unfold Playlist.reorder
  by_cases hv : 0 ≤ a ∧ a < ((Playlist.getAll s).length : Int) ∧
      0 ≤ b ∧ b < ((Playlist.getAll s).length : Int)
  · rw [dif_pos hv, Option.getD_some]
    have hsortperm : (Playlist.getAll s).Perm s.items := List.mergeSort_perm s.items _
    have hAmem : (Playlist.getAll s).get ⟨a.toNat, by omega⟩ ∈ s.items :=
      hsortperm.subset (List.get_mem _ _ _)
    have hBmem : (Playlist.getAll s).get ⟨b.toNat, by omega⟩ ∈ s.items :=
      hsortperm.subset (List.get_mem _ _ _)
    set eA := (Playlist.getAll s).get ⟨a.toNat, by omega⟩ with heA
    set eB := (Playlist.getAll s).get ⟨b.toNat, by omega⟩ with heB
    set f := fun e : QueueItem =>
      if e.id = eA.id then { e with queueIndex := eB.queueIndex }
      else if e.id = eB.id then { e with queueIndex := eA.queueIndex }
      else e with hf
    have hfid : ∀ e : QueueItem, (f e).id = e.id := by
      intro e
      simp only [hf]
      by_cases h1 : e.id = eA.id
      · rw [if_pos h1]
      · rw [if_neg h1]
        by_cases h2 : e.id = eB.id
        · rw [if_pos h2]
        · rw [if_neg h2]
    refine ⟨?_, ?_, ?_⟩
    · rw [ids_map_preserve _ _ hfid]
      exact hids
    · intro e' he'
      rcases List.mem_map.mp he' with ⟨x, hx, rfl⟩
      rw [hfid x]
      exact hbound x hx
    · by_cases hab : eA.id = eB.id
      · have heqAB : eA = eB :=
          List.inj_on_of_nodup_map hids hAmem hBmem hab
        have hpt : ∀ e ∈ s.items, f e = e := by
          intro e he
          simp only [hf]
          by_cases h1 : e.id = eA.id
          · have he2 : e = eA := List.inj_on_of_nodup_map hids he hAmem h1
            rw [if_pos h1]
            have hq : eB.queueIndex = e.queueIndex := by rw [he2, heqAB]
            rw [hq]
          · rw [if_neg h1, if_neg (by rw [← heqAB]; exact h1)]
        have hident : s.items.map f = s.items := by
          rw [List.map_congr_left hpt]
          exact List.map_id s.items
        simp only [qisOf, hident]
        exact hperm
      · have hBl1 : eB ∈ s.items.filter (fun e => e.id ≠ eA.id) := by
          refine List.mem_filter.mpr ⟨hBmem, ?_⟩
          have hne : eB.id ≠ eA.id := fun hc => hab hc.symm
          simpa using hne
        have hl1nodup : ((s.items.filter (fun e => e.id ≠ eA.id)).map (fun e => e.id)).Nodup :=
          List.Nodup.sublist (List.Sublist.map _ (List.filter_sublist s.items)) hids
        have hsplit1 : s.items.Perm (eA :: s.items.filter (fun e => e.id ≠ eA.id)) :=
          perm_cons_filter_of_nodup_ids s.items eA hids hAmem
        have hsplit2 : (s.items.filter (fun e => e.id ≠ eA.id)).Perm
            (eB :: (s.items.filter (fun e => e.id ≠ eA.id)).filter (fun e => e.id ≠ eB.id)) :=
          perm_cons_filter_of_nodup_ids _ eB hl1nodup hBl1
        set l2 := (s.items.filter (fun e => e.id ≠ eA.id)).filter (fun e => e.id ≠ eB.id) with hl2
        have hall : s.items.Perm (eA :: eB :: l2) :=
          hsplit1.trans (hsplit2.cons eA)
        have hfA : f eA = { eA with queueIndex := eB.queueIndex } := by
          simp [hf]
        have hfB : f eB = { eB with queueIndex := eA.queueIndex } := by
          simp only [hf]
          rw [if_neg (fun hc => hab hc.symm)]
          simp
        have hl2fix : l2.map f = l2 := by
          have hpt : ∀ e ∈ l2, f e = e := by
            intro e he
            rw [hl2] at he
            have h2 : e.id ≠ eB.id := by simpa using (List.mem_filter.mp he).2
            have h1 : e.id ≠ eA.id := by
              simpa using (List.mem_filter.mp (List.mem_of_mem_filter he)).2
            simp only [hf]
            rw [if_neg h1, if_neg h2]
          rw [List.map_congr_left hpt]
          exact List.map_id l2
        simp only [qisOf, List.length_map]
        have hstep1 : ((s.items.map f).map (fun e => e.queueIndex)).Perm
            ((eA :: eB :: l2).map (fun e => e.queueIndex)) := by
          refine ((hall.map f).map _).trans ?_
          simp only [List.map_cons, hfA, hfB, hl2fix]
          exact List.Perm.swap _ _ _
        exact hstep1.trans ((hall.symm.map _).trans hperm)
  · rw [dif_neg hv, Option.getD_none]
    exact ⟨hids, hbound, hperm⟩

/-- Every queue operation preserves the store invariant. -/
theorem storeOk_apply (s : Store) (op : QueueOp) (h : StoreOk s) :
    StoreOk (applyQueueOp s op) := by
  cases op with
  | add blob md i => exact storeOk_add s blob md i h
  | remove rid => exact storeOk_remove s rid h
  | reorder a b => exact storeOk_reorder s a b h

/-- The empty store satisfies the invariant. -/
theorem storeOk_empty : StoreOk Store.empty := by
  refine ⟨by simp [Store.empty], by simp [Store.empty], ?_⟩
  simp [Store.empty, qisOf, rangeInt]

/-- The invariant holds after any operation sequence from the empty
store. -/
theorem storeOk_run (ops : List QueueOp) : StoreOk (runQueueOps ops) := by
  unfold runQueueOps
  suffices h : ∀ s, StoreOk s → StoreOk (ops.foldl applyQueueOp s) by
    exact h Store.empty storeOk_empty
  induction ops with
  | nil => exact fun s hs => hs
  | cons op rest ih => exact fun s hs => ih _ (storeOk_apply s op hs)

/-- C1: after any sequence of add (with or without an insert position),
remove and reorder operations from the empty store, no two records share a
queueIndex and the stored positions are exactly 0 to count-1. -/
theorem index_uniqueness (ops : List QueueOp) :
    (qisOf (runQueueOps ops)).Nodup ∧
    (∀ v : Int, v ∈ qisOf (runQueueOps ops) ↔
      (0 ≤ v ∧ v < ((runQueueOps ops).items.length : Int))) := by
  obtain ⟨hids, hbound, hperm⟩ := storeOk_run ops
  constructor
  · exact hperm.symm.nodup (rangeInt_nodup _)
  · intro v
    rw [hperm.mem_iff, mem_rangeInt]

/-- Peeling one assignment off the front of the order map: a later
assignment for the same id wins. -/
theorem orderMapGet_cons (p : Nat × Int) (rest : List (Nat × Int)) (j : Nat) :
    Roll.orderMapGet (p :: rest) j =
      (match Roll.orderMapGet rest j with
       | some v => some v
       | none => if p.1 = j then some p.2 else none) := by
  unfold Roll.orderMapGet
  rw [List.reverse_cons, List.find?_append]
  cases h : rest.reverse.find? (fun q => q.1 = j) with
  | some q => simp [h]
  | none =>
      by_cases hp : p.1 = j <;> simp [h, List.find?_cons, hp]

/-- Finding by key in a pair list with duplicate-free keys returns the
unique pair carrying that key. -/
theorem find_key_unique (l : List (Nat × Int)) (j : Nat) (v : Int)
    (hnd : (l.map Prod.fst).Nodup) (hmem : (j, v) ∈ l) :
    l.find? (fun p => p.1 = j) = some (j, v) := by
  induction l with
  | nil => cases hmem
  | cons q rest ih =>
      rw [List.map_cons, List.nodup_cons] at hnd
      rcases List.mem_cons.mp hmem with h | h
      · rw [← h]
        simp [List.find?_cons]
      · have hq : q.1 ≠ j := by
          intro hc
          exact hnd.1 (hc ▸ (List.mem_map.mpr ⟨(j, v), h, rfl⟩))
        rw [List.find?_cons_of_neg _ (by simpa using hq)]
        exact ih hnd.2 h

/-- With duplicate-free keys the order map returns the recorded value. -/
theorem orderMapGet_of_nodup (updates : List (Nat × Int)) (j : Nat) (v : Int)
    (hnd : (updates.map Prod.fst).Nodup) (hmem : (j, v) ∈ updates) :
    Roll.orderMapGet updates j = some v := by
  unfold Roll.orderMapGet
  have hrevnd : (updates.reverse.map Prod.fst).Nodup := by
    rw [List.map_reverse]
    exact List.nodup_reverse.mpr hnd
  have hrevmem : (j, v) ∈ updates.reverse := List.mem_reverse.mpr hmem
  rw [find_key_unique updates.reverse j v hrevnd hrevmem]
  rfl

/-- Finding a record by id after a batch of position assignments: the
record found before, with its position replaced by the last assignment
recorded for that id, if any. -/
theorem batch_find (updates : List (Nat × Int)) (items : List QueueItem) (j : Nat) :
    (updates.foldl Playlist.applyIndexUpdate items).find? (fun e => e.id = j) =
      (items.find? (fun e => e.id = j)).map (fun e =>
        match Roll.orderMapGet updates j with
        | some v => { e with queueIndex := v }
        | none => e) := by
  induction updates generalizing items with
  | nil =>
      cases h : items.find? (fun e => e.id = j) <;> simp [Roll.orderMapGet, h]
  | cons p rest ih =>
      rw [List.foldl_cons, ih, orderMapGet_cons]
      have hstep : (Playlist.applyIndexUpdate items p).find? (fun e => e.id = j) =
          (items.find? (fun e => e.id = j)).map
            (fun e => if e.id = p.1 then { e with queueIndex := p.2 } else e) := by
        unfold Playlist.applyIndexUpdate
        exact find_id_map items _ (fun x => by by_cases hx : x.id = p.1 <;> simp [hx]) j
      rw [hstep, Option.map_map]
      cases hfind : items.find? (fun e => e.id = j) with
      | none => simp
      | some e =>
          have hej : e.id = j := by simpa using List.find?_some hfind
          simp only [Option.map_some']
          cases horder : Roll.orderMapGet rest j with
          | some v =>
              simp only [Function.comp]
              by_cases he1 : e.id = p.1 <;> simp [he1]
          | none =>
              simp only [Function.comp]
              by_cases hp : p.1 = j
              · have he1 : e.id = p.1 := by rw [hej, hp]
                simp [he1, hp]
              · have he1 : ¬ e.id = p.1 := by
                  rw [hej]
                  exact fun hc => hp hc.symm
                simp [he1, hp]

/-- The keys produced by an indexed pairing are the mapped keys. -/
theorem mapIdx_pair_fst {β : Type} (l : List β) (key : β → Nat) (val : Nat → Int) :
    (l.mapIdx (fun i p => (key p, val i))).map Prod.fst = l.map key := by
  rw [List.mapIdx_eq_enum_map, List.map_map]
  have h1 : (Prod.fst ∘ Function.uncurry fun i p => (key p, val i)) =
      (fun q : Nat × β => key q.2) := rfl
  rw [h1]
  have h2 : (fun q : Nat × β => key q.2) = (key ∘ Prod.snd) := rfl
  rw [h2, ← List.map_map, List.enum_map_snd]

/-- The matched items, forgetting their orders, are exactly the playlist
items whose id resolves in the order map. -/
theorem itemsWithOrder_fst (od : List (Nat × Int)) (pls : List QueueItem) :
    (Roll.itemsWithOrder od pls).map Prod.fst =
      pls.filter (fun it => (Roll.orderMapGet od it.id).isSome) := by
  unfold Roll.itemsWithOrder
  induction pls with
  | nil => rfl
  | cons x tl ih =>
      cases h : Roll.orderMapGet od x.id <;>
        simp [List.filterMap_cons, h, ih, List.filter_cons]

/-- The keys of one reconciliation assignment, in order: ids of the sorted
matched items, then ids of the unmatched items. -/
theorem finalOrdering_keys (od : List (Nat × Int)) (pls : List QueueItem) :
    (Roll.finalOrdering od pls).map Prod.fst =
      (Roll.sortedWithOrder od pls).map (fun p => p.1.id) ++
      (Roll.itemsWithoutOrder od pls).map (fun it => it.id) := by
  unfold Roll.finalOrdering
  rw [List.map_append, mapIdx_pair_fst, mapIdx_pair_fst]

/-- The ids of the sorted matched items permute into the ids of the
playlist items whose id resolves. -/
theorem sortedWith_ids_perm (od : List (Nat × Int)) (pls : List QueueItem) :
    ((Roll.sortedWithOrder od pls).map (fun p => p.1.id)).Perm
      ((pls.filter (fun it => (Roll.orderMapGet od it.id).isSome)).map (fun it => it.id)) := by
  have h1 : (Roll.sortedWithOrder od pls).Perm (Roll.itemsWithOrder od pls) :=
    List.mergeSort_perm _ _
  refine (h1.map (fun p => p.1.id)).trans ?_
  have h3 : (Roll.itemsWithOrder od pls).map (fun p => p.1.id) =
      ((Roll.itemsWithOrder od pls).map Prod.fst).map (fun it => it.id) := by
    rw [List.map_map]
    rfl
  rw [h3, itemsWithOrder_fst]

/-- With duplicate-free playlist ids the reconciliation assignment has
duplicate-free keys. -/
theorem finalOrdering_keys_nodup (od : List (Nat × Int)) (pls : List QueueItem)
    (hids : (pls.map (fun e => e.id)).Nodup) :
    ((Roll.finalOrdering od pls).map Prod.fst).Nodup := by
  rw [finalOrdering_keys]
  have hA : ((Roll.sortedWithOrder od pls).map (fun p => p.1.id)).Nodup := by
    refine (sortedWith_ids_perm od pls).symm.nodup ?_
    exact List.Nodup.sublist (List.Sublist.map _ (List.filter_sublist pls)) hids
  have hB : ((Roll.itemsWithoutOrder od pls).map (fun it => it.id)).Nodup := by
    unfold Roll.itemsWithoutOrder
    exact List.Nodup.sublist (List.Sublist.map _ (List.filter_sublist pls)) hids
  refine List.Nodup.append hA hB ?_
  intro v hvA hvB
  have hvA2 : v ∈ (pls.filter (fun it => (Roll.orderMapGet od it.id).isSome)).map
      (fun it => it.id) :=
    (sortedWith_ids_perm od pls).subset hvA
  rcases List.mem_map.mp hvA2 with ⟨a, ha, rfl⟩
  rcases List.mem_map.mp hvB with ⟨b, hb, hbe⟩
  have hb' : b ∈ pls.filter (fun it => (Roll.orderMapGet od it.id).isNone) := hb
  have hamem : a ∈ pls := List.mem_of_mem_filter ha
  have hbmem : b ∈ pls := List.mem_of_mem_filter hb'
  have hba : b = a := List.inj_on_of_nodup_map hids hbmem hamem hbe
  have hsome : (Roll.orderMapGet od a.id).isSome := by
    simpa using (List.mem_filter.mp ha).2
  have hnone : (Roll.orderMapGet od b.id).isNone := by
    simpa using (List.mem_filter.mp hb').2
  rw [hba] at hnone
  cases h : Roll.orderMapGet od a.id <;> rw [h] at hsome hnone <;> simp at hsome hnone

/-- A record with a known id in the list makes the search by that id
succeed. -/
theorem find_by_id_isSome (l : List QueueItem) (it : QueueItem) (hmem : it ∈ l) :
    ∃ e, l.find? (fun x => x.id = it.id) = some e := by
  cases h : l.find? (fun x => x.id = it.id) with
  | some e => exact ⟨e, rfl⟩
  | none =>
      have h2 := List.find?_eq_none.mp h it hmem
      simp at h2

/-- Every sorted matched item is a playlist item. -/
theorem sortedWith_mem_playlist (od : List (Nat × Int)) (pls : List QueueItem)
    (p : QueueItem × Int) (hp : p ∈ Roll.sortedWithOrder od pls) : p.1 ∈ pls := by
  have h1 : p ∈ Roll.itemsWithOrder od pls := (List.mergeSort_perm _ _).subset hp
  have h2 : p.1 ∈ (Roll.itemsWithOrder od pls).map Prod.fst :=
    List.mem_map.mpr ⟨p, h1, rfl⟩
  rw [itemsWithOrder_fst] at h2
  exact List.mem_of_mem_filter h2

/-- C5 amended: a reconciliation run in which at least one playlist item
resolves an ordering entry sorts the resolving items by their desired
order, assigns them the contiguous positions 0..k-1 in that sort order,
assigns the non-resolving items the continuing positions k, k+1, ... in
their existing relative order, applies the whole assignment as one batch,
and returns k.  (When no item resolves, the source returns 0 without
touching the store — see the counterexample.) -/
theorem updateOrdering_amended (entries : List RollEntry) (s : Store)
    (hids : (s.items.map (fun e => e.id)).Nodup)
    (hnz : Roll.buildOrderingFromEntries entries (Playlist.getAll s) ≠ []) :
    ∃ s',
      Roll.updateOrdering entries s = some (s',
        (Roll.itemsWithOrder (Roll.buildOrderingFromEntries entries (Playlist.getAll s))
          (Playlist.getAll s)).length) ∧
      List.Pairwise (fun x y : QueueItem × Int => x.2 ≤ y.2)
        (Roll.sortedWithOrder (Roll.buildOrderingFromEntries entries (Playlist.getAll s))
          (Playlist.getAll s)) ∧
      (Roll.sortedWithOrder (Roll.buildOrderingFromEntries entries (Playlist.getAll s))
        (Playlist.getAll s)).Perm
        (Roll.itemsWithOrder (Roll.buildOrderingFromEntries entries (Playlist.getAll s))
          (Playlist.getAll s)) ∧
      (∀ i, (hi : i < (Roll.sortedWithOrder (Roll.buildOrderingFromEntries entries
          (Playlist.getAll s)) (Playlist.getAll s)).length) →
        (s'.items.find? (fun e => e.id =
          ((Roll.sortedWithOrder (Roll.buildOrderingFromEntries entries (Playlist.getAll s))
            (Playlist.getAll s)).get ⟨i, hi⟩).1.id)).map (fun e => e.queueIndex) =
          some (i : Int)) ∧
      (∀ j, (hj : j < (Roll.itemsWithoutOrder (Roll.buildOrderingFromEntries entries
          (Playlist.getAll s)) (Playlist.getAll s)).length) →
        (s'.items.find? (fun e => e.id =
          ((Roll.itemsWithoutOrder (Roll.buildOrderingFromEntries entries (Playlist.getAll s))
            (Playlist.getAll s)).get ⟨j, hj⟩).id)).map (fun e => e.queueIndex) =
          some (((Roll.sortedWithOrder (Roll.buildOrderingFromEntries entries
            (Playlist.getAll s)) (Playlist.getAll s)).length : Int) + (j : Int))) := by
  set pls := Playlist.getAll s with hpls
  set od := Roll.buildOrderingFromEntries entries pls with hod
  have hplsitems : pls.Perm s.items := List.mergeSort_perm s.items _
  have hplsids : (pls.map (fun e => e.id)).Nodup :=
    ((hplsitems.map (fun e => e.id)).symm).nodup hids
  have hpls_ne : ¬ pls.length = 0 := by
    intro h0
    apply hnz
    rw [hod, List.length_eq_zero.mp h0]
    rfl
  have hod_ne : ¬ od.length = 0 := fun h0 => hnz (List.length_eq_zero.mp h0)
  have hguard : (Roll.finalOrdering od pls).all
      (fun p => s.items.any (fun e => e.id = p.1)) = true := by
    rw [List.all_eq_true]
    intro p hp
    have hkey : p.1 ∈ (Roll.finalOrdering od pls).map Prod.fst :=
      List.mem_map.mpr ⟨p, hp, rfl⟩
    rw [finalOrdering_keys] at hkey
    have hexists : ∃ it ∈ pls, it.id = p.1 := by
      rcases List.mem_append.mp hkey with hk | hk
      · have hk2 := (sortedWith_ids_perm od pls).subset hk
        rcases List.mem_map.mp hk2 with ⟨a, ha, hae⟩
        exact ⟨a, List.mem_of_mem_filter ha, hae⟩
      · rcases List.mem_map.mp hk with ⟨b, hb, hbe⟩
        have hb' : b ∈ pls.filter (fun it => (Roll.orderMapGet od it.id).isNone) := hb
        exact ⟨b, List.mem_of_mem_filter hb', hbe⟩
    rcases hexists with ⟨it, hitp, hite⟩
    have hitmem : it ∈ s.items := hplsitems.subset hitp
    rw [List.any_eq_true]
    exact ⟨it, hitmem, by simp [hite]⟩
  have hbatch : Playlist.batchUpdateQueueIndices s (Roll.finalOrdering od pls) =
      some { s with items :=
        (Roll.finalOrdering od pls).foldl Playlist.applyIndexUpdate s.items } := by
    unfold Playlist.batchUpdateQueueIndices
    rw [if_pos hguard]
  have hmain : Roll.updateOrdering entries s =
      some ({ s with items :=
          (Roll.finalOrdering od pls).foldl Playlist.applyIndexUpdate s.items },
        (Roll.itemsWithOrder od pls).length) := by
    unfold Roll.updateOrdering Roll.reorderAllItems
    simp only []
    rw [← hod]
    rw [if_neg hpls_ne, if_neg hod_ne, if_neg hpls_ne, hbatch]
  refine ⟨_, hmain, ?_, List.mergeSort_perm _ _, ?_, ?_⟩
  · have hs := @List.sorted_mergeSort (QueueItem × Int)
      (fun x y => decide (x.2 ≤ y.2))
      (fun a b c hab hbc => by
        simp only [decide_eq_true_eq] at hab hbc ⊢
        omega)
      (fun a b => by
        simp only [Bool.or_eq_true, decide_eq_true_eq]
        omega)
      (Roll.itemsWithOrder od pls)
    refine hs.imp ?_
    intro a b hab
    simpa using hab
  · intro i hi
    have hidx : i < ((Roll.sortedWithOrder od pls).mapIdx
        (fun i p => (p.1.id, (i : Int)))).length := by
      rw [List.length_mapIdx]
      exact hi
    have heq := @List.getElem_mapIdx (QueueItem × Int) (Nat × Int)
      (Roll.sortedWithOrder od pls) (fun i p => (p.1.id, (i : Int))) i hidx
    have hmem0 := List.getElem_mem hidx
    rw [heq] at hmem0
    have hpair : (((Roll.sortedWithOrder od pls).get ⟨i, hi⟩).1.id, (i : Int)) ∈
        Roll.finalOrdering od pls := by
      apply List.mem_append_left
      simpa [List.get_eq_getElem] using hmem0
    have hlast : Roll.orderMapGet (Roll.finalOrdering od pls)
        (((Roll.sortedWithOrder od pls).get ⟨i, hi⟩).1.id) = some (i : Int) :=
      orderMapGet_of_nodup _ _ _ (finalOrdering_keys_nodup od pls hplsids) hpair
    have hitpls : ((Roll.sortedWithOrder od pls).get ⟨i, hi⟩).1 ∈ pls :=
      sortedWith_mem_playlist od pls _ (List.get_mem _ _ _)
    have hitems : ((Roll.sortedWithOrder od pls).get ⟨i, hi⟩).1 ∈ s.items :=
      hplsitems.subset hitpls
    rcases find_by_id_isSome s.items _ hitems with ⟨e, hfe⟩
    show (((Roll.finalOrdering od pls).foldl Playlist.applyIndexUpdate s.items).find?
      (fun e => e.id = ((Roll.sortedWithOrder od pls).get ⟨i, hi⟩).1.id)).map
        (fun e => e.queueIndex) = some (i : Int)
    rw [batch_find, hfe, hlast]
    simp
  · intro j hj
    have hidx : j < ((Roll.itemsWithoutOrder od pls).mapIdx
        (fun i it => (it.id, ((Roll.sortedWithOrder od pls).length + i : Int)))).length := by
      rw [List.length_mapIdx]
      exact hj
    have heq := @List.getElem_mapIdx QueueItem (Nat × Int)
      (Roll.itemsWithoutOrder od pls)
      (fun i it => (it.id, ((Roll.sortedWithOrder od pls).length + i : Int))) j hidx
    have hmem0 := List.getElem_mem hidx
    rw [heq] at hmem0
    have hpair : (((Roll.itemsWithoutOrder od pls).get ⟨j, hj⟩).id,
        ((Roll.sortedWithOrder od pls).length : Int) + (j : Int)) ∈
        Roll.finalOrdering od pls := by
      apply List.mem_append_right
      simpa [List.get_eq_getElem] using hmem0
    have hlast : Roll.orderMapGet (Roll.finalOrdering od pls)
        (((Roll.itemsWithoutOrder od pls).get ⟨j, hj⟩).id) =
        some (((Roll.sortedWithOrder od pls).length : Int) + (j : Int)) :=
      orderMapGet_of_nodup _ _ _ (finalOrdering_keys_nodup od pls hplsids) hpair
    have hitpls : ((Roll.itemsWithoutOrder od pls).get ⟨j, hj⟩) ∈ pls := by
      have hmem1 : ((Roll.itemsWithoutOrder od pls).get ⟨j, hj⟩) ∈
          Roll.itemsWithoutOrder od pls := List.get_mem _ _ _
      have hb' : ((Roll.itemsWithoutOrder od pls).get ⟨j, hj⟩) ∈
          pls.filter (fun it => (Roll.orderMapGet od it.id).isNone) := hmem1
      exact List.mem_of_mem_filter hb'
    have hitems : ((Roll.itemsWithoutOrder od pls).get ⟨j, hj⟩) ∈ s.items :=
      hplsitems.subset hitpls
    rcases find_by_id_isSome s.items _ hitems with ⟨e, hfe⟩
    show (((Roll.finalOrdering od pls).foldl Playlist.applyIndexUpdate s.items).find?
      (fun e => e.id = ((Roll.itemsWithoutOrder od pls).get ⟨j, hj⟩).id)).map
        (fun e => e.queueIndex) =
      some (((Roll.sortedWithOrder od pls).length : Int) + (j : Int))
    rw [batch_find, hfe, hlast]
    simp

/-- A one-item store whose item resolves no ordering entry. -/
def cexStoreC5 : Store :=
  { items := [{ id := 1, blob := some 9, queueIndex := 5, metadata := [] }], nextId := 2 }

/-- C5 counterexample: with an empty ordering source every playlist item is
unmatched, so the claim demands the unmatched items be appended at the
contiguous indices k, k+1, ... = 0, 1, ... (k = 0 resolvable entries);
but the source returns 0 and leaves the store untouched, so the single
unmatched item keeps queueIndex 5 instead of being assigned index 0. -/
theorem updateOrdering_counterexample :
    Roll.updateOrdering [] cexStoreC5 = some (cexStoreC5, 0) ∧
    Roll.itemsWithoutOrder
      (Roll.buildOrderingFromEntries [] (Playlist.getAll cexStoreC5))
      (Playlist.getAll cexStoreC5) = Playlist.getAll cexStoreC5 ∧
    cexStoreC5.items.map (fun e => e.queueIndex) = [5] := by
  have hga : Playlist.getAll cexStoreC5 = cexStoreC5.items :=
    List.mergeSort_of_sorted (by decide)
  refine ⟨?_, ?_, by decide⟩
  · unfold Roll.updateOrdering
    simp only []
    rw [hga]
    decide
  · rw [hga]
    decide

/-- The spec's 4-entry reconciliation example: "a" names item 1, "b" names
item 2, items 3 and 4 match nothing. -/
def witStoreC5 : Store :=
  { items :=
      [ { id := 1, blob := some 1, queueIndex := 0, metadata := [("filename", MetaVal.str "a")] },
        { id := 2, blob := some 2, queueIndex := 1, metadata := [("filename", MetaVal.str "b")] },
        { id := 3, blob := some 3, queueIndex := 2, metadata := [] },
        { id := 4, blob := some 4, queueIndex := 3, metadata := [] } ],
    nextId := 5 }

/-- The spec example's ordering source. -/
def witEntriesC5 : List RollEntry :=
  [ { file := "b", order := 0 }, { file := "a", order := 1 } ]

/-- C5 witness: the amended theorem applied to the spec's 4-entry example,
whose two resolvable items give k = 2. -/
theorem updateOrdering_amended_witness :
    (witStoreC5.items.map (fun e => e.id)).Nodup ∧
    Roll.buildOrderingFromEntries witEntriesC5 (Playlist.getAll witStoreC5) ≠ [] ∧
    (Roll.itemsWithOrder (Roll.buildOrderingFromEntries witEntriesC5 (Playlist.getAll witStoreC5))
      (Playlist.getAll witStoreC5)).length = 2 ∧
    (∃ s',
      Roll.updateOrdering witEntriesC5 witStoreC5 = some (s',
        (Roll.itemsWithOrder (Roll.buildOrderingFromEntries witEntriesC5 (Playlist.getAll witStoreC5))
          (Playlist.getAll witStoreC5)).length) ∧
      List.Pairwise (fun x y : QueueItem × Int => x.2 ≤ y.2)
        (Roll.sortedWithOrder (Roll.buildOrderingFromEntries witEntriesC5 (Playlist.getAll witStoreC5))
          (Playlist.getAll witStoreC5)) ∧
      (Roll.sortedWithOrder (Roll.buildOrderingFromEntries witEntriesC5 (Playlist.getAll witStoreC5))
        (Playlist.getAll witStoreC5)).Perm
        (Roll.itemsWithOrder (Roll.buildOrderingFromEntries witEntriesC5 (Playlist.getAll witStoreC5))
          (Playlist.getAll witStoreC5)) ∧
      (∀ i, (hi : i < (Roll.sortedWithOrder (Roll.buildOrderingFromEntries witEntriesC5
          (Playlist.getAll witStoreC5)) (Playlist.getAll witStoreC5)).length) →
        (s'.items.find? (fun e => e.id =
          ((Roll.sortedWithOrder (Roll.buildOrderingFromEntries witEntriesC5 (Playlist.getAll witStoreC5))
            (Playlist.getAll witStoreC5)).get ⟨i, hi⟩).1.id)).map (fun e => e.queueIndex) =
          some (i : Int)) ∧
      (∀ j, (hj : j < (Roll.itemsWithoutOrder (Roll.buildOrderingFromEntries witEntriesC5
          (Playlist.getAll witStoreC5)) (Playlist.getAll witStoreC5)).length) →
        (s'.items.find? (fun e => e.id =
          ((Roll.itemsWithoutOrder (Roll.buildOrderingFromEntries witEntriesC5 (Playlist.getAll witStoreC5))
            (Playlist.getAll witStoreC5)).get ⟨j, hj⟩).id)).map (fun e => e.queueIndex) =
          some (((Roll.sortedWithOrder (Roll.buildOrderingFromEntries witEntriesC5
            (Playlist.getAll witStoreC5)) (Playlist.getAll witStoreC5)).length : Int) + (j : Int)))) :=
  have hga : Playlist.getAll witStoreC5 = witStoreC5.items :=
    List.mergeSort_of_sorted (by decide)
  ⟨by decide, by rw [hga]; decide, by rw [hga]; decide,
    updateOrdering_amended witEntriesC5 witStoreC5 (by decide) (by rw [hga]; decide)⟩
